import Mathlib

/-!
# Verification of the libdonow todo.txt parser

A shallow embedding of `src/parser.rs` and `src/file.rs` of the libdonow
repository, together with proofs settling the frozen claims about the
specification.

Strings are modelled as `String`/`List Char`.  The `fancy_regex` patterns used
by the source are fixed, hand-verified patterns; each one is embedded as an
explicit matcher function (leftmost-first search, greedy runs, the negative
lookbehind `(?<!:)` carried as the previous character of the scan).  The regex
word class `\w` is modelled as ASCII alphanumerics plus underscore, `\S` as
non-whitespace, `\d` as ASCII digits, matching the character data exercised by
the todo.txt format.  A Rust panic (the `.expect` on date parsing) is modelled
by the `fatal` outcome.
-/

/-! ## Character classes -/

/-- The regex class `\w`. -/
def isWordChar (c : Char) : Bool := c.isAlphanum || c = '_'

/-- ASCII whitespace as used by `str::trim` on todo.txt content. -/
def isSpaceChar (c : Char) : Bool := c = ' ' || c = '\t' || c = '\n' || c = '\r'

/-- The regex class `\d`. -/
def isDigitChar (c : Char) : Bool := c.isDigit

/-- The regex class `\S`. -/
def isNonSpace (c : Char) : Bool := !(isSpaceChar c)

/-- Remove trailing whitespace (the right half of `str::trim`). -/
def dropTrailingSpaces (l : List Char) : List Char :=
  (l.reverse.dropWhile isSpaceChar).reverse

/-- `str::trim`. -/
def trimChars (l : List Char) : List Char :=
  dropTrailingSpaces (l.dropWhile isSpaceChar)

/-- `str::starts_with('x')`. -/
def startsX (s : String) : Bool :=
  match s.data with
  | c :: _ => c = 'x'
  | [] => false

/-! ## Calendar dates (chrono::NaiveDate) -/

/-- Proleptic Gregorian leap year, as used by chrono. -/
def isLeapYear (y : Nat) : Bool := (y % 4 = 0 && y % 100 != 0) || y % 400 = 0

/-- Number of days of a month. -/
def daysInMonth (y m : Nat) : Nat :=
  if m = 2 then (if isLeapYear y then 29 else 28)
  else if m = 4 || m = 6 || m = 9 || m = 11 then 30
  else 31

/-- Validity of a year-month-day triple as a calendar date. -/
def dateValid (y m d : Nat) : Bool :=
  1 ≤ m && m ≤ 12 && 1 ≤ d && d ≤ daysInMonth y m

/-- A calendar date (`chrono::NaiveDate`). -/
structure Date where
  year : Nat
  month : Nat
  day : Nat
deriving DecidableEq, Repr

/-- Numeric value of an ASCII digit. -/
def charDigit (c : Char) : Nat := c.toNat - '0'.toNat

/-- `NaiveDate::parse_from_str(s, "%Y-%m-%d")` on a ten character
`\d{4}-\d{2}-\d{2}` slice: `none` models the `Err` that the source turns into a
panic via `.expect`. -/
def parseDate10 (t : List Char) : Option Date :=
  match t with
  | [a, b, c, d, e, f, g, h, i, j] =>
    if e = '-' && h = '-' && [a, b, c, d, f, g, i, j].all isDigitChar then
      let y := charDigit a * 1000 + charDigit b * 100 + charDigit c * 10 + charDigit d
      let mo := charDigit f * 10 + charDigit g
      let da := charDigit i * 10 + charDigit j
      if dateValid y mo da then some ⟨y, mo, da⟩ else none
    else none
  | _ => none

/-- The ASCII digit character for `n < 10`. -/
def digitChar (n : Nat) : Char := Char.ofNat ('0'.toNat + n)

/-- Two zero-padded digits (the `%m` / `%d` rendering of chrono's `Display`). -/
def digit2 (n : Nat) : List Char := [digitChar (n / 10 % 10), digitChar (n % 10)]

/-- Four zero-padded digits (the `%Y` rendering for years `0..9999`). -/
def digit4 (n : Nat) : List Char :=
  [digitChar (n / 1000 % 10), digitChar (n / 100 % 10), digitChar (n / 10 % 10),
    digitChar (n % 10)]

/-- `format!("{}", naive_date)`: ISO 8601 `YYYY-MM-DD`. -/
def dateChars (d : Date) : List Char :=
  digit4 d.year ++ '-' :: digit2 d.month ++ '-' :: digit2 d.day

/-! ## Regex matchers

Each matcher tries to match its pattern at the start of the given suffix of the
haystack; `prev` is the character immediately before that position in the full
haystack (`none` at the very beginning), used by the lookbehind `(?<!:)`.
A successful result is the pair (matched characters, remaining characters). -/

/-- A matcher-at-position function. -/
def MatchFn := Option Char → List Char → Option (List Char × List Char)

/-- `\+(\w+)`. -/
def projRun (s : List Char) : Option (List Char × List Char) :=
  match s with
  | c :: rest =>
    if c = '+' then
      let w := rest.takeWhile isWordChar
      if w.isEmpty then none else some (c :: w, rest.dropWhile isWordChar)
    else none
  | [] => none

/-- `\@(\w+)`. -/
def ctxRun (s : List Char) : Option (List Char × List Char) :=
  match s with
  | c :: rest =>
    if c = '@' then
      let w := rest.takeWhile isWordChar
      if w.isEmpty then none else some (c :: w, rest.dropWhile isWordChar)
    else none
  | [] => none

/-- `\((\w+)\)`. -/
def priRun (s : List Char) : Option (List Char × List Char) :=
  match s with
  | c :: rest =>
    if c = '(' then
      let w := rest.takeWhile isWordChar
      if w.isEmpty then none
      else
        match rest.dropWhile isWordChar with
        | c2 :: r2 => if c2 = ')' then some (c :: w ++ [c2], r2) else none
        | [] => none
    else none
  | [] => none

/-- `(\w+):(\S+)`. -/
def tagRun (s : List Char) : Option (List Char × List Char) :=
  let w := s.takeWhile isWordChar
  if w.isEmpty then none
  else
    match s.dropWhile isWordChar with
    | c2 :: rest =>
      if c2 = ':' then
        let v := rest.takeWhile isNonSpace
        if v.isEmpty then none else some (w ++ c2 :: v, rest.dropWhile isNonSpace)
      else none
    | [] => none

/-- Position `i` of `s` holds an ASCII digit. -/
def isDigitAt (s : List Char) (i : Nat) : Bool :=
  match s[i]? with
  | some c => isDigitChar c
  | none => false

/-- Position `i` of `s` holds exactly `c0`. -/
def charAt (s : List Char) (i : Nat) (c0 : Char) : Bool :=
  match s[i]? with
  | some c => c = c0
  | none => false

/-- The shape `\d{4}-\d{2}-\d{2}` matches at the start of `s`. -/
def dateShapeAt (s : List Char) : Bool :=
  isDigitAt s 0 && isDigitAt s 1 && isDigitAt s 2 && isDigitAt s 3 &&
  charAt s 4 '-' && isDigitAt s 5 && isDigitAt s 6 && charAt s 7 '-' &&
  isDigitAt s 8 && isDigitAt s 9

/-- `(?<!:)(\d{4}-\d{2}-\d{2})`: a bare date token, not preceded by `:`. -/
def dateRun (prev : Option Char) (s : List Char) : Option (List Char × List Char) :=
  if prev = some ':' then none
  else if dateShapeAt s then some (s.take 10, s.drop 10) else none

/-- `due:(\d{4}-\d{2}-\d{2})`. -/
def dueRun (s : List Char) : Option (List Char × List Char) :=
  match s with
  | c1 :: c2 :: c3 :: c4 :: rest =>
    if c1 = 'd' && c2 = 'u' && c3 = 'e' && c4 = ':' && dateShapeAt rest then
      some (c1 :: c2 :: c3 :: c4 :: rest.take 10, rest.drop 10)
    else none
  | _ => none

/-- The title-removal alternation
`(\+(\w+)|\@(\w+)|\((\w+)\)|\w+:(\S+)|(?<!:)\d{4}-\d{2}-\d{2})`,
alternatives tried left to right. -/
def titleRun (prev : Option Char) (s : List Char) : Option (List Char × List Char) :=
  match projRun s with
  | some r => some r
  | none =>
    match ctxRun s with
    | some r => some r
    | none =>
      match priRun s with
      | some r => some r
      | none =>
        match tagRun s with
        | some r => some r
        | none => dateRun prev s

/-- The project matcher as a `MatchFn` (no lookbehind). -/
def projM : MatchFn := fun _ s => projRun s

/-- The context matcher as a `MatchFn`. -/
def ctxM : MatchFn := fun _ s => ctxRun s

/-- The priority matcher as a `MatchFn`. -/
def priM : MatchFn := fun _ s => priRun s

/-- The tag matcher as a `MatchFn`. -/
def tagM : MatchFn := fun _ s => tagRun s

/-- The bare-date matcher as a `MatchFn`. -/
def dateM : MatchFn := fun prev s => dateRun prev s

/-- The due-date matcher as a `MatchFn`. -/
def dueM : MatchFn := fun _ s => dueRun s

/-- The title-removal matcher as a `MatchFn`. -/
def titleM : MatchFn := fun prev s => titleRun prev s

/-! ## Scanners: `Regex::find`, `find_iter`, `replace_all`

The scan walks the haystack left to right; at every position it tries the
matcher, and on success continues after the match (non-overlapping matches,
`prev` becoming the last matched character).  All embedded patterns match at
least one character, so a fuel of `s.length` suffices; `find` needs no fuel. -/

/-- `Regex::find`: the leftmost match. -/
def findFirst (m : MatchFn) : Option Char → List Char → Option (List Char)
  | _, [] => none
  | prev, c :: rest =>
    match m prev (c :: rest) with
    | some (t, _) => some t
    | none => findFirst m (some c) rest

/-- Fuel-indexed worker for `find_iter`. -/
def findAllAux (m : MatchFn) : Nat → Option Char → List Char → List (List Char)
  | 0, _, _ => []
  | _ + 1, _, [] => []
  | fuel + 1, prev, c :: rest =>
    match m prev (c :: rest) with
    | some (t, r) => t :: findAllAux m fuel t.getLast? r
    | none => findAllAux m fuel (some c) rest

/-- `Regex::find_iter`: all non-overlapping matches, left to right. -/
def findAll (m : MatchFn) (prev : Option Char) (s : List Char) : List (List Char) :=
  findAllAux m s.length prev s

/-- Fuel-indexed worker for `replace_all` with empty replacement. -/
def replaceAllAux (m : MatchFn) : Nat → Option Char → List Char → List Char
  | 0, _, s => s
  | _ + 1, _, [] => []
  | fuel + 1, prev, c :: rest =>
    match m prev (c :: rest) with
    | some (t, r) => replaceAllAux m fuel t.getLast? r
    | none => c :: replaceAllAux m fuel (some c) rest

/-- `Regex::replace_all(s, "")`: delete every non-overlapping match. -/
def replaceAll (m : MatchFn) (prev : Option Char) (s : List Char) : List Char :=
  replaceAllAux m s.length prev s

/-! ## The Todo record (`src/parser.rs`) -/

/-- The parse errors of `src/parser.rs` (`TodoErr`). -/
inductive TodoErr where
  | noTitle
  | regexParseErr
deriving DecidableEq, Repr

/-- Outcome of a fallible parsing step: `ok` and `err` mirror
`Result<_, TodoErr>`; `fatal` models a Rust panic (the `.expect` on date
parsing), which unwinds through every caller. -/
inductive ParseOutcome (α : Type) where
  | ok (a : α)
  | err (e : TodoErr)
  | fatal (msg : String)
deriving DecidableEq, Repr

/-- Functorial map on the `ok` value. -/
def ParseOutcome.map {α β : Type} (f : α → β) : ParseOutcome α → ParseOutcome β
  | .ok a => .ok (f a)
  | .err e => .err e
  | .fatal m => .fatal m

/-- The outcome is a success. -/
def ParseOutcome.isOk {α : Type} : ParseOutcome α → Bool
  | .ok _ => true
  | _ => false

/-- The outcome is a modelled panic. -/
def ParseOutcome.isFatal {α : Type} : ParseOutcome α → Bool
  | .fatal _ => true
  | _ => false

/-- The `Todo` struct.  `others` models the hashbrown `HashMap<String, String>`
as an insertion-ordered association list with unique keys (`mapInsert` below
overwrites in place, like `HashMap::insert`); iteration order of the source map
is unspecified, the list order is the deterministic stand-in. -/
structure Todo where
  title : String
  completed : Bool
  priority : Option String
  completion : Option Date
  creation : Option Date
  project : Option String
  context : Option String
  others : List (String × String)
  content : String
deriving DecidableEq, Repr

/-- `HashMap::insert`: overwrite the value of an existing key, otherwise add
the binding. -/
def mapInsert (m : List (String × String)) (k v : String) : List (String × String) :=
  if m.any (fun p => p.1 = k) then
    m.map (fun p => if p.1 = k then (k, v) else p)
  else m ++ [(k, v)]

/-- `str::split_once(':')`. -/
def splitOnceColon : List Char → Option (List Char × List Char)
  | [] => none
  | c :: rest =>
    if c = ':' then some ([], rest)
    else (splitOnceColon rest).map (fun p => (c :: p.1, p.2))

/-- `Todo::new`. -/
def Todo.new (s : String) : Todo where
  title := ""
  completed := false
  priority := none
  completion := none
  creation := none
  project := none
  context := none
  others := []
  content := s

/-- Body of `Todo::parse_project` as a pure function of the content: first
`\+(\w+)` match, without the `+`.  The `Result` wrapper of the source can only
fail on regex compilation of the fixed pattern and is dropped. -/
def projectOf (s : String) : Option String :=
  (findFirst projM none s.data).map (fun p => String.mk (p.drop 1))

/-- Body of `Todo::parse_context`: first `\@(\w+)` match, without the `@`. -/
def contextOf (s : String) : Option String :=
  (findFirst ctxM none s.data).map (fun p => String.mk (p.drop 1))

/-- Body of `Todo::parse_priority`: first `\((\w+)\)` match with the
parentheses stripped. -/
def priorityOf (s : String) : Option String :=
  (findFirst priM none s.data).map (fun p => String.mk ((p.drop 1).dropLast))

/-- Body of `Todo::parse_tags`: every `(\w+):(\S+)` match, split at the first
`:` and inserted into the map. -/
def tagsOf (s : String) : List (String × String) :=
  (findAll tagM none s.data).foldl
    (fun map e =>
      match splitOnceColon e with
      | some (k, v) => mapInsert map (String.mk k) (String.mk v)
      | none => map)
    []

/-- Core of `Todo::parse_title` after its own marker strip: delete every match
of the removal alternation, trim; empty residue is the `NoTitle` error. -/
def titleCore (l : List Char) : Except TodoErr String :=
  let title := replaceAll titleM none l
  if (trimChars title).isEmpty then .error .noTitle
  else .ok (String.mk (trimChars title))

/-- Body of `Todo::parse_title`: strip a leading `x` (again, even though
`Todo::parse` already stripped one), then run the removal core. -/
def titleOf (s : String) : Except TodoErr String :=
  match s.data with
  | 'x' :: rest => titleCore (trimChars rest)
  | l => titleCore l

/-- Body of `Todo::parse_dates`: the first two `(?<!:)(\d{4}-\d{2}-\d{2})`
matches, parsed as calendar dates (first = creation, second = completion); an
invalid calendar date is the `.expect` panic. -/
def datesOf (s : String) : ParseOutcome (Option Date × Option Date) :=
  match findAll dateM none s.data with
  | [] => .ok (none, none)
  | m1 :: rest =>
    match parseDate10 m1 with
    | none => .fatal "Failed to parse date"
    | some d1 =>
      match rest with
      | [] => .ok (some d1, none)
      | m2 :: _ =>
        match parseDate10 m2 with
        | none => .fatal "Failed to parse date"
        | some d2 => .ok (some d1, some d2)

/-- Body of `Todo::parse_due`: first `due:(\d{4}-\d{2}-\d{2})` match, date
part parsed; an invalid calendar date is the `.expect` panic. -/
def dueOf (s : String) : ParseOutcome (Option Date) :=
  match findFirst dueM none s.data with
  | none => .ok none
  | some m =>
    match parseDate10 (m.drop 4) with
    | none => .fatal "Failed to parse date"
    | some d => .ok (some d)

/-- `Todo::parse_project` (reads `self.content`). -/
def Todo.parse_project (t : Todo) : Option String := projectOf t.content

/-- `Todo::parse_context`. -/
def Todo.parse_context (t : Todo) : Option String := contextOf t.content

/-- `Todo::parse_priority`. -/
def Todo.parse_priority (t : Todo) : Option String := priorityOf t.content

/-- `Todo::parse_tags`. -/
def Todo.parse_tags (t : Todo) : List (String × String) := tagsOf t.content

/-- `Todo::parse_title`. -/
def Todo.parse_title (t : Todo) : Except TodoErr String := titleOf t.content

/-- `Todo::parse_dates`. -/
def Todo.parse_dates (t : Todo) : ParseOutcome (Option Date × Option Date) :=
  datesOf t.content

/-- `Todo::parse_due`. -/
def Todo.parse_due (t : Todo) : ParseOutcome (Option Date) := dueOf t.content

/-- The content after step (1) of `Todo::parse`: the leading completion marker
`x` stripped (one byte) and the remainder trimmed. -/
def parseContent (s : String) : String :=
  if startsX s then String.mk (trimChars (s.data.drop 1)) else s

/-- `Todo::parse`: strip the completion marker, then run the extractors in
source order (project, context, tags, priority, title, dates). -/
def Todo.parse (s : String) : ParseOutcome Todo :=
  let t1 : Todo := { Todo.new s with completed := startsX s, content := parseContent s }
  let t2 : Todo := { t1 with project := t1.parse_project }
  let t3 : Todo := { t2 with context := t2.parse_context }
  let t4 : Todo := { t3 with others := t3.parse_tags }
  let t5 : Todo := { t4 with priority := t4.parse_priority }
  match t5.parse_title with
  | .error e => .err e
  | .ok title =>
    let t6 : Todo := { t5 with title := title }
    match t6.parse_dates with
    | .ok (cr, co) => .ok { t6 with creation := cr, completion := co }
    | .err e => .err e
    | .fatal msg => .fatal msg

/-- `Todo::toggle_status`. -/
def Todo.toggle_status (t : Todo) : Todo := { t with completed := !t.completed }

/-- `Todo::smart_parse`.  The wall clock (`chrono::Local::now().date()`) is
passed in as the explicit argument `today`. -/
def Todo.smart_parse (today : Date) (s : String) : ParseOutcome Todo :=
  match Todo.parse s with
  | .ok t =>
    let t1 := if t.creation = none then { t with creation := some today } else t
    let t2 := if t1.priority = none then { t1 with priority := some "D" } else t1
    .ok t2
  | .err e => .err e
  | .fatal msg => .fatal msg

/-- The ` (P)` fragment of `Display for Todo` (`push_str(&format!(" ({})", p))`). -/
def priPart : Option String → List Char
  | some p => ' ' :: '(' :: (p.data ++ [')'])
  | none => []

/-- A ` YYYY-MM-DD` fragment of `Display for Todo`. -/
def datePart : Option Date → List Char
  | some d => ' ' :: dateChars d
  | none => []

/-- The ` +project` fragment of `Display for Todo`. -/
def projPart : Option String → List Char
  | some p => ' ' :: '+' :: p.data
  | none => []

/-- The ` @context` fragment of `Display for Todo`. -/
def ctxPart : Option String → List Char
  | some c => ' ' :: '@' :: c.data
  | none => []

/-- The ` k:v` fragments of `Display for Todo`, in map iteration order. -/
def tagsPart (l : List (String × String)) : List Char :=
  (l.map (fun kv => ' ' :: (kv.1.data ++ ':' :: kv.2.data))).flatten

/-- Everything `Display for Todo` emits after the completion marker. -/
def bodyChars (t : Todo) : List Char :=
  priPart t.priority ++ datePart t.completion ++ datePart t.creation ++
    (' ' :: t.title.data) ++ projPart t.project ++ ctxPart t.context ++
    tagsPart t.others

/-- The `Display` impl for `Todo`: `x`, ` (P)`, completion date, creation date,
title, ` +project`, ` @context`, then the tag pairs. -/
def Todo.render (t : Todo) : String :=
  String.mk ((if t.completed then ['x'] else []) ++ bodyChars t)

/-! ## The collection layer (`src/file.rs`) -/

/-- `str::lines`: worker splitting at every `'\n'`. -/
def splitNl : List Char → List Char → List (List Char)
  | acc, [] => [acc.reverse]
  | acc, '\n' :: rest => acc.reverse :: splitNl [] rest
  | acc, c :: rest => splitNl (c :: acc) rest

/-- Strip one carriage return from the end of a `'\n'`-terminated segment, as
`str::lines` does after removing the `'\n'` (and only then). -/
def stripCr (l : List Char) : List Char :=
  if l.getLast? = some '\r' then l.dropLast else l

/-- `str::lines`: the text is split after every `'\n'`; each `'\n'`-terminated
segment loses the `'\n'` and then one `'\r'` directly before it, while a final
segment not terminated by `'\n'` — in particular one ending in a bare `'\r'` —
is kept as is; a final `'\n'` (or empty input) leaves a trailing empty segment
that produces no line.  In `splitNl`'s output, every segment except the last
was `'\n'`-terminated. -/
def rustLines (s : String) : List String :=
  let segs := splitNl [] s.data
  let init := segs.dropLast.map stripCr
  let last := segs.getLast?.getD []
  (if last.isEmpty then init else init ++ [last]).map (fun l => String.mk l)

/-- The `TodoFile` struct.  The on-disk `path` is an I/O concern and omitted;
the claims govern `from_string`/`load`, which only use `content` and `todos`. -/
structure TodoFile where
  todos : List Todo
  content : String
deriving DecidableEq, Repr

/-- The loop body of `TodoFile::load`: `Ok` lines are pushed, `Err` lines are
skipped; a panic inside `Todo::parse` unwinds and aborts the whole load. -/
def loadLines : List String → ParseOutcome (List Todo)
  | [] => .ok []
  | l :: ls =>
    match Todo.parse l with
    | .ok t => (loadLines ls).map (fun r => t :: r)
    | .err _ => loadLines ls
    | .fatal msg => .fatal msg

/-- `TodoFile::load`, the result replacing `self.todos`. -/
def TodoFile.load (f : TodoFile) : ParseOutcome TodoFile :=
  (loadLines (rustLines f.content)).map (fun ts => { f with todos := ts })

/-- `TodoFile::from_string`. -/
def TodoFile.from_string (content : String) : ParseOutcome TodoFile :=
  TodoFile.load { todos := [], content := content }

/-- Chronological order on dates (the `Ord` of `chrono::NaiveDate`). -/
def dateLeB (a b : Date) : Bool :=
  decide (a.year < b.year ∨ (a.year = b.year ∧
    (a.month < b.month ∨ (a.month = b.month ∧ a.day ≤ b.day))))

/-- The `Ord` of `Option<NaiveDate>`: `None` sorts before `Some`. -/
def optDateLe : Option Date → Option Date → Bool
  | none, _ => true
  | some _, none => false
  | some a, some b => dateLeB a b

/-- `TodoFile::rearrange`: not-completed items sorted (stably) by creation
date, then completed items sorted by completion date.  The source takes
`&mut self` but never writes it; the pair returns the post-state alongside the
result vector. -/
def TodoFile.rearrange (f : TodoFile) : TodoFile × List Todo :=
  let not_done :=
    (f.todos.filter (fun e => !e.completed)).mergeSort
      (fun a b => optDateLe a.creation b.creation)
  let done :=
    (f.todos.filter (fun e => e.completed)).mergeSort
      (fun a b => optDateLe a.completion b.completion)
  (f, not_done ++ done)

/-! ## Verification-side definitions -/

/-- A matcher consumes: a successful match splits its input and the matched
part is nonempty.  Every embedded pattern requires at least one character. -/
def Consumes (m : MatchFn) : Prop :=
  ∀ prev s t r, m prev s = some (t, r) → s = t ++ r ∧ t ≠ []

/-- The character seen as `prev` after scanning past `l` (the last character
of `l`, or the incoming `prev` when `l` is empty). -/
def lastOr (prev : Option Char) : List Char → Option Char
  | [] => prev
  | c :: rest => lastOr (some c) rest

/-- The matcher fails at every position of the chunk `a`, scanned with
continuation `b` and incoming previous character `prev`. -/
def Fails (m : MatchFn) : Option Char → List Char → List Char → Prop
  | _, [], _ => True
  | prev, c :: a, b => m prev (c :: (a ++ b)) = none ∧ Fails m (some c) a b

/-- No previous character, or one that is not `:` — the lookbehind of the
bare-date pattern cannot veto the position. -/
def PrevOk (prev : Option Char) : Prop := ∀ c, prev = some c → c ≠ ':'

/-- The continuation is empty or starts with the space that `render` puts in
front of every later fragment. -/
def SpacedTail (b : List Char) : Prop := ∀ c, b.head? = some c → c = ' '

/-- A nonempty all-word-character token. -/
def wfWord (l : List Char) : Bool := !l.isEmpty && l.all isWordChar

/-- A canonical title: nonempty, letters and spaces only, not starting or
ending with a space. -/
def wfTitle (l : List Char) : Bool :=
  !l.isEmpty && l.all (fun c => c.isAlpha || c = ' ') &&
    (match l.head? with
      | some c => !(c = ' ')
      | none => false) &&
    (match l.getLast? with
      | some c => !(c = ' ')
      | none => false)

/-- An absent field, or one whose token satisfies `f`. -/
def wfOptStr (f : List Char → Bool) : Option String → Bool
  | none => true
  | some s => f s.data

/-- An absent date, or a valid calendar date with a four-digit year. -/
def wfDate : Option Date → Bool
  | none => true
  | some d => dateValid d.year d.month d.day && d.year ≤ 9999

/-- A canonical tag: word key and word value. -/
def wfTag (kv : String × String) : Bool := wfWord kv.1.data && wfWord kv.2.data

/-- A canonical tag map: canonical tags with pairwise distinct keys. -/
def wfTags (l : List (String × String)) : Bool :=
  l.all wfTag && decide (l.map Prod.fst).Nodup

/-- A canonical record: the formalisation of a record whose rendering is "a
line in canonical field order".  Tokens are well formed, dates are valid, and
— because `parse_title` strips a second leading `x` — when the record is
completed and the title is the first rendered field, the title must not begin
with `x`. -/
def WF (t : Todo) : Bool :=
  wfOptStr wfWord t.priority && wfDate t.completion && wfDate t.creation &&
    wfTitle t.title.data && wfOptStr wfWord t.project &&
    wfOptStr wfWord t.context && wfTags t.others &&
    (!(t.completed && t.priority.isNone && t.completion.isNone &&
        t.creation.isNone) ||
      (match t.title.data.head? with
        | some c => !(c = 'x')
        | none => true))

/-- The dates obtained by re-parsing a rendered record: render emits
completion before creation, and the re-parse assigns the first token to
creation and the second to completion. -/
def reparseDates (co cr : Option Date) : Option Date × Option Date :=
  match co, cr with
  | some a, some b => (some a, some b)
  | some a, none => (some a, none)
  | none, some b => (some b, none)
  | none, none => (none, none)

/-- The spec's reading of the completion marker for claim C2: the raw line
begins with the literal `x` followed by whitespace. -/
def beginsWithMarker (s : String) : Bool :=
  match s.data with
  | 'x' :: c :: _ => isSpaceChar c
  | _ => false

/-! ## Structural lemmas about `Todo.parse` -/

/-- Explicit shape of `Todo.parse`: all extractor results over the
marker-stripped content. -/
theorem parse_eq (s : String) :
    Todo.parse s =
      match titleOf (parseContent s) with
      | .error e => .err e
      | .ok title =>
        match datesOf (parseContent s) with
        | .ok (cr, co) =>
          .ok { title := title, completed := startsX s,
                priority := priorityOf (parseContent s), completion := co,
                creation := cr, project := projectOf (parseContent s),
                context := contextOf (parseContent s),
                others := tagsOf (parseContent s), content := parseContent s }
        | .err e => .err e
        | .fatal msg => .fatal msg := rfl

/-- Projections of a successful parse. -/
theorem parse_ok_fields (s : String) (t : Todo) (h : Todo.parse s = .ok t) :
    t.completed = startsX s ∧ t.content = parseContent s ∧
    t.project = projectOf (parseContent s) ∧ t.context = contextOf (parseContent s) ∧
    t.others = tagsOf (parseContent s) ∧ t.priority = priorityOf (parseContent s) ∧
    titleOf (parseContent s) = .ok t.title ∧
    datesOf (parseContent s) = .ok (t.creation, t.completion) := by
  rw [parse_eq] at h
  rcases hT : titleOf (parseContent s) with e | title <;> rw [hT] at h
  · cases h
  · rcases hD : datesOf (parseContent s) with ⟨cr, co⟩ | e | msg <;> rw [hD] at h <;>
      cases h <;> simp_all

/-- C7 (confirmed): `toggle_status` flips only `completed` and is an
involution. -/
theorem c7_toggle_involution (t : Todo) :
    t.toggle_status.toggle_status = t ∧
    t.toggle_status.completed = !t.completed ∧
    t.toggle_status.title = t.title ∧
    t.toggle_status.priority = t.priority ∧
    t.toggle_status.creation = t.creation ∧
    t.toggle_status.completion = t.completion ∧
    t.toggle_status.project = t.project ∧
    t.toggle_status.context = t.context ∧
    t.toggle_status.others = t.others ∧
    t.toggle_status.content = t.content := by
  cases t
  simp [Todo.toggle_status]

/-- C4 (confirmed): the end-to-end example line parses to exactly the claimed
field values. -/
theorem c4_end_to_end :
    Todo.parse "x (A) 2024-08-15 2024-09-20 Hello World +hello @wow due:123" =
      .ok { completed := true, priority := some "A", creation := some ⟨2024, 8, 15⟩,
            completion := some ⟨2024, 9, 20⟩, title := "Hello World",
            project := some "hello", context := some "wow", others := [("due", "123")],
            content := "(A) 2024-08-15 2024-09-20 Hello World +hello @wow due:123" } := by
  decide

/-- C2 counterexample: `parse("xylophone")` succeeds with `completed = true`
although the line does not begin with `x` followed by whitespace. -/
theorem c2_counterexample :
    (Todo.parse "xylophone").map (fun t => t.completed) = .ok true ∧
    beginsWithMarker "xylophone" = false := by
  decide

/-- C2 (corrected): on a successful parse, `completed` is true iff the raw
line begins with the character `x` — whitespace after the marker is not
required — and when it does, the marker character (with surrounding
whitespace) is stripped from the retained content before any field, including
the title, is extracted. -/
theorem c2_completed_amended (s : String) (t : Todo) (h : Todo.parse s = .ok t) :
    (t.completed = true ↔ startsX s = true) ∧
    (startsX s = true → t.content = String.mk (trimChars (s.data.drop 1))) := by
  obtain ⟨h1, h2, -⟩ := parse_ok_fields s t h
  refine ⟨by rw [h1], fun hx => ?_⟩
  rw [h2]
  simp [parseContent, hx]

/-- Witness for C2: the amended statement applied to the line `"x hello"`. -/
theorem c2_witness :
    ((⟨"hello", true, none, none, none, none, none, [], "hello"⟩ : Todo).completed = true ↔
      startsX "x hello" = true) := by
  exact (c2_completed_amended "x hello" _ (by decide)).1

/-- C9 (confirmed): the leading-`x` strip happens twice on the parse path;
whenever the content left by `parse`'s own strip still begins with `x`, the
title is computed from that content with its first character removed and the
rest trimmed again, so `parse "x xylophone lesson"` gets the title
`"ylophone lesson"`. -/
theorem c9_double_strip :
    (∀ (s : String) (t : Todo) (rest : List Char), Todo.parse s = .ok t →
        startsX s = true → (parseContent s).data = 'x' :: rest →
        Except.ok t.title = titleCore (trimChars rest)) ∧
    (Todo.parse "x xylophone lesson").map (fun t => t.title) = .ok "ylophone lesson" := by
  constructor
  · intro s t rest h _ hdata
    obtain ⟨-, -, -, -, -, -, hT, -⟩ := parse_ok_fields s t h
    rw [titleOf, hdata] at hT
    exact hT.symm
  · decide

/-- Witness for C9: the double-strip equation instantiated on
`"x xylophone lesson"`. -/
theorem c9_witness :
    Except.ok (⟨"ylophone lesson", true, none, none, none, none, none, [],
        "xylophone lesson"⟩ : Todo).title =
      titleCore (trimChars "ylophone lesson".data) := by
  exact c9_double_strip.1 "x xylophone lesson" _ "ylophone lesson".data (by decide)
    (by decide) (by decide)

/-- C6 (confirmed): `smart_parse` succeeds exactly when `parse` does and
propagates the same error (in particular `NoTitle`); on success the absent
creation date defaults to the current date and an absent priority defaults to
`"D"`, while present values are kept. -/
theorem c6_smart_parse (today : Date) (s : String) :
    ((Todo.parse s).isOk = (Todo.smart_parse today s).isOk) ∧
    (∀ e, Todo.parse s = .err e → Todo.smart_parse today s = .err e) ∧
    (∀ t, Todo.parse s = .ok t →
      Todo.smart_parse today s =
        .ok { t with creation := some (t.creation.getD today),
                     priority := some (t.priority.getD "D") }) := by
  unfold Todo.smart_parse
  rcases h : Todo.parse s with t | e | msg
  · refine ⟨?_, ?_, ?_⟩
    · simp [ParseOutcome.isOk]
    · intro e he
      exact ParseOutcome.noConfusion he
    · intro t2 ht2
      injection ht2 with h3
      subst h3
      obtain ⟨ti, co, pr, cp, cr, pj, cx, ot, ct⟩ := t
      cases cr <;> cases pr <;> simp
  · refine ⟨rfl, ?_, ?_⟩
    · intro e2 he2
      exact he2
    · intro t2 ht2
      exact ParseOutcome.noConfusion ht2
  · refine ⟨rfl, ?_, ?_⟩
    · intro e2 he2
      exact ParseOutcome.noConfusion he2
    · intro t2 ht2
      exact ParseOutcome.noConfusion ht2

/-- Witness for C6: defaulting on the bare line `"hello"`. -/
theorem c6_witness :
    Todo.smart_parse ⟨2024, 1, 1⟩ "hello" =
      .ok { title := "hello", completed := false, priority := some "D",
            completion := none, creation := some ⟨2024, 1, 1⟩, project := none,
            context := none, others := [], content := "hello" } := by
  have h : Todo.parse "hello" =
      .ok ⟨"hello", false, none, none, none, none, none, [], "hello"⟩ := by decide
  simpa using (c6_smart_parse ⟨2024, 1, 1⟩ "hello").2.2 _ h

/-- C3 counterexample: the input `"2024-01-01 2024-02-02 2024-13-40"` contains
a token matching the date digit pattern that is not a real calendar date, yet
date extraction succeeds (only the first two tokens are ever parsed), so the
extraction is not a hard failure for every such input. -/
theorem c3_counterexample :
    findAll dateM none "2024-01-01 2024-02-02 2024-13-40".data =
      ["2024-01-01".data, "2024-02-02".data, "2024-13-40".data] ∧
    dateShapeAt "2024-13-40".data = true ∧
    parseDate10 "2024-13-40".data = none ∧
    datesOf "2024-01-01 2024-02-02 2024-13-40" =
      .ok (some ⟨2024, 1, 1⟩, some ⟨2024, 2, 2⟩) := by
  decide

/-- C3 (corrected): the panic of the date-parsing step is reachable exactly
through the tokens the extractors actually parse — the first `due:` token for
`parse_due`, the first two bare date tokens for `parse_dates`; an invalid
date-shaped token in either position is a hard failure (a panic, not a `None`
or an error value), and the panic branch is unreachable when every date-shaped
token examined is a valid calendar date. -/
theorem c3_panic_amended :
    (Todo.parse_dates (Todo.new "2024-13-01") = .fatal "Failed to parse date") ∧
    (Todo.parse_due (Todo.new "due:2024-13-01") = .fatal "Failed to parse date") ∧
    (∀ (t : Todo) (m1 : List Char) (ms : List (List Char)),
        findAll dateM none t.content.data = m1 :: ms → parseDate10 m1 = none →
        t.parse_dates = .fatal "Failed to parse date") ∧
    (∀ (t : Todo) (m1 m2 : List Char) (ms : List (List Char)),
        findAll dateM none t.content.data = m1 :: m2 :: ms → parseDate10 m2 = none →
        t.parse_dates = .fatal "Failed to parse date") ∧
    (∀ (t : Todo) (m : List Char),
        findFirst dueM none t.content.data = some m → parseDate10 (m.drop 4) = none →
        t.parse_due = .fatal "Failed to parse date") ∧
    (∀ (t : Todo) (m1 m2 : List Char) (ms : List (List Char)) (d1 d2 : Date),
        findAll dateM none t.content.data = m1 :: m2 :: ms →
        parseDate10 m1 = some d1 → parseDate10 m2 = some d2 →
        t.parse_dates = .ok (some d1, some d2)) ∧
    (∀ t : Todo,
        (∀ m ∈ (findAll dateM none t.content.data).take 2, (parseDate10 m).isSome) →
        (t.parse_dates).isFatal = false) ∧
    (∀ t : Todo, (∀ m, findFirst dueM none t.content.data = some m →
        (parseDate10 (m.drop 4)).isSome) → (t.parse_due).isFatal = false) := by
  refine ⟨by decide, by decide, ?_, ?_, ?_, ?_, ?_, ?_⟩
  · intro t m1 ms hfind hbad
    simp [Todo.parse_dates, datesOf, hfind, hbad]
  · intro t m1 m2 ms hfind hbad
    cases hp1 : parseDate10 m1 <;>
      simp [Todo.parse_dates, datesOf, hfind, hbad, hp1]
  · intro t m hfind hbad
    simp [Todo.parse_due, dueOf, hfind, hbad]
  · intro t m1 m2 ms d1 d2 hfind hp1 hp2
    simp [Todo.parse_dates, datesOf, hfind, hp1, hp2]
  · intro t hall
    rcases hfind : findAll dateM none t.content.data with - | ⟨m1, rest⟩
    · simp [Todo.parse_dates, datesOf, hfind, ParseOutcome.isFatal]
    · have h1 := hall m1 (by rw [hfind]; simp)
      rcases hp1 : parseDate10 m1 with - | d1
      · rw [hp1] at h1
        cases h1
      · rcases rest with - | ⟨m2, rest2⟩
        · simp [Todo.parse_dates, datesOf, hfind, hp1, ParseOutcome.isFatal]
        · have h2 := hall m2 (by rw [hfind]; simp)
          rcases hp2 : parseDate10 m2 with - | d2
          · rw [hp2] at h2
            cases h2
          · simp [Todo.parse_dates, datesOf, hfind, hp1, hp2, ParseOutcome.isFatal]
  · intro t hall
    rcases hfind : findFirst dueM none t.content.data with - | m
    · simp [Todo.parse_due, dueOf, hfind, ParseOutcome.isFatal]
    · have h1 := hall m hfind
      rcases hp1 : parseDate10 (m.drop 4) with - | d
      · rw [hp1] at h1
        cases h1
      · simp [Todo.parse_due, dueOf, hfind, hp1, ParseOutcome.isFatal]

/-- Witness for C3: the no-panic direction applied to a line whose only
date-shaped token is valid. -/
theorem c3_witness : (Todo.parse_dates (Todo.new "2024-01-01 hi")).isFatal = false := by
  exact c3_panic_amended.2.2.2.2.2.2.1 (Todo.new "2024-01-01 hi") (by decide)

/-- Helper: when no line panics, the load loop is exactly an ordered
`filterMap` keeping the successfully parsed lines. -/
theorem loadLines_ok (ls : List String) (h : ∀ l ∈ ls, (Todo.parse l).isFatal = false) :
    loadLines ls =
      .ok (ls.filterMap (fun l =>
        match Todo.parse l with
        | .ok t => some t
        | .err _ => none
        | .fatal _ => none)) := by
  induction ls with
  | nil => rfl
  | cons l ls ih =>
    have h1 := h l (List.mem_cons_self ..)
    have h2 : ∀ x ∈ ls, (Todo.parse x).isFatal = false :=
      fun x hx => h x (List.mem_cons_of_mem _ hx)
    rcases hp : Todo.parse l with t | e | msg
    · simp [loadLines, hp, ih h2, ParseOutcome.map]
    · simp [loadLines, hp, ih h2]
    · rw [hp] at h1
      cases h1

/-- C8 counterexample: in the text `"2024-13-40 hi\nx good +p"` the first line
fails (it panics on the invalid calendar date), the second line parses fine,
yet loading produces no todo list at all — the failing line aborts the load
instead of being skipped. -/
theorem c8_counterexample :
    (Todo.parse "2024-13-40 hi").isFatal = true ∧
    (Todo.parse "x good +p").isOk = true ∧
    TodoFile.from_string "2024-13-40 hi\nx good +p" = .fatal "Failed to parse date" := by
  decide

/-- C8 (corrected): loading a text produces exactly the records of the lines
on which `parse` succeeds, in order, and lines on which `parse` returns an
error are silently skipped without aborting — provided no line hits the
invalid-calendar-date panic; a panicking line aborts the whole load. -/
theorem c8_load_amended (content : String)
    (hnp : ∀ l ∈ rustLines content, (Todo.parse l).isFatal = false) :
    TodoFile.from_string content =
      .ok { todos := (rustLines content).filterMap (fun l =>
              match Todo.parse l with
              | .ok t => some t
              | .err _ => none
              | .fatal _ => none),
            content := content } := by
  rw [TodoFile.from_string, TodoFile.load, loadLines_ok _ hnp]
  rfl

/-- Witness for C8: a three-line text whose middle line fails with `NoTitle`
and is skipped. -/
theorem c8_witness :
    TodoFile.from_string "hello\n+bad\nx world" =
      .ok { todos := [⟨"hello", false, none, none, none, none, none, [], "hello"⟩,
                      ⟨"world", true, none, none, none, none, none, [], "world"⟩],
            content := "hello\n+bad\nx world" } := by
  exact (c8_load_amended "hello\n+bad\nx world" (by decide)).trans (by decide)

/-- Chronological order on dates is transitive. -/
theorem dateLeB_trans (a b c : Date) (h1 : dateLeB a b = true)
    (h2 : dateLeB b c = true) : dateLeB a c = true := by
  simp only [dateLeB, decide_eq_true_eq] at h1 h2 ⊢
  omega

/-- Chronological order on dates is total. -/
theorem dateLeB_total (a b : Date) : (dateLeB a b || dateLeB b a) = true := by
  simp only [dateLeB, Bool.or_eq_true, decide_eq_true_eq]
  omega

/-- The option order used by `rearrange` is transitive. -/
theorem optDateLe_trans (a b c : Option Date) (h1 : optDateLe a b = true)
    (h2 : optDateLe b c = true) : optDateLe a c = true := by
  cases a <;> cases b <;> cases c <;> simp [optDateLe] at h1 h2 ⊢ <;>
    first
      | rfl
      | exact dateLeB_trans _ _ _ h1 h2

/-- The option order used by `rearrange` is total. -/
theorem optDateLe_total (a b : Option Date) : (optDateLe a b || optDateLe b a) = true := by
  match a, b with
  | none, _ => simp [optDateLe]
  | some x, none => simp [optDateLe]
  | some x, some y => simpa [optDateLe] using dateLeB_total x y

/-- C10 (confirmed): `rearrange` leaves the file state untouched and returns a
permutation of the todos: first the not-completed records sorted by creation
date, then the completed records sorted by completion date. -/
theorem c10_rearrange (f : TodoFile) :
    f.rearrange.1 = f ∧
    (f.rearrange.2).Perm f.todos ∧
    (∃ A B, f.rearrange.2 = A ++ B ∧
      (∀ x ∈ A, x.completed = false) ∧ (∀ x ∈ B, x.completed = true) ∧
      A.Perm (f.todos.filter (fun e => !e.completed)) ∧
      B.Perm (f.todos.filter (fun e => e.completed)) ∧
      A.Pairwise (fun a b => optDateLe a.creation b.creation = true) ∧
      B.Pairwise (fun a b => optDateLe a.completion b.completion = true)) := by
  have hperm1 := List.mergeSort_perm (f.todos.filter (fun e => !e.completed))
    (fun a b => optDateLe a.creation b.creation)
  have hperm2 := List.mergeSort_perm (f.todos.filter (fun e => e.completed))
    (fun a b => optDateLe a.completion b.completion)
  have hsplit := List.filter_append_perm (fun e : Todo => !e.completed) f.todos
  have hnn : (fun x : Todo => !!x.completed) = fun x : Todo => x.completed := by
    funext x
    simp
  rw [hnn] at hsplit
  refine ⟨rfl, (hperm1.append hperm2).trans hsplit, _, _, rfl, ?_, ?_, hperm1, hperm2, ?_, ?_⟩
  · intro x hx
    have := hperm1.mem_iff.mp hx
    exact (Bool.not_eq_true' _).mp (List.mem_filter.mp this).2
  · intro x hx
    have := hperm2.mem_iff.mp hx
    exact (List.mem_filter.mp this).2
  · exact List.sorted_mergeSort
      (fun a b c => optDateLe_trans a.creation b.creation c.creation)
      (fun a b => optDateLe_total a.creation b.creation) _
  · exact List.sorted_mergeSort
      (fun a b c => optDateLe_trans a.completion b.completion c.completion)
      (fun a b => optDateLe_total a.completion b.completion) _

/-! ## Generic scanner lemmas -/

/-- A matcher consumes at least one character and returns the split of its
input. -/
theorem consumes_projM : Consumes projM := by
  intro prev s t r h
  rcases s with - | ⟨c, rest⟩
  · cases h
  · simp only [projM, projRun] at h
    split at h
    · split at h
      · cases h
      · injection h with h2
        injection h2 with h3 h4
        subst h3
        subst h4
        exact ⟨by simp [List.takeWhile_append_dropWhile], by simp⟩
    · cases h

/-- The context matcher consumes. -/
theorem consumes_ctxM : Consumes ctxM := by
  intro prev s t r h
  rcases s with - | ⟨c, rest⟩
  · cases h
  · simp only [ctxM, ctxRun] at h
    split at h
    · split at h
      · cases h
      · injection h with h2
        injection h2 with h3 h4
        subst h3
        subst h4
        exact ⟨by simp [List.takeWhile_append_dropWhile], by simp⟩
    · cases h

/-- The priority matcher consumes. -/
theorem consumes_priM : Consumes priM := by
  intro prev s t r h
  rcases s with - | ⟨c, rest⟩
  · cases h
  · rcases hd : rest.dropWhile isWordChar with - | ⟨c2, r2⟩ <;>
      simp only [priM, priRun, hd] at h
    · split at h
      · split at h <;> cases h
      · cases h
    · split at h
      · split at h
        · cases h
        · split at h
          · injection h with h2
            injection h2 with h3 h4
            subst h3
            subst h4
            have hr : rest = rest.takeWhile isWordChar ++ (c2 :: r2) := by
              rw [← hd, List.takeWhile_append_dropWhile]
            constructor
            · conv_lhs => rw [hr]
              simp
            · simp
          · cases h
      · cases h

/-- The tag matcher consumes. -/
theorem consumes_tagM : Consumes tagM := by
  intro prev s t r h
  rcases hd : s.dropWhile isWordChar with - | ⟨c2, r2⟩ <;>
    simp only [tagM, tagRun, hd] at h
  · split at h <;> cases h
  · split at h
    · cases h
    · split at h
      · split at h
        · cases h
        · injection h with h2
          injection h2 with h3 h4
          subst h3
          subst h4
          have hs : s = s.takeWhile isWordChar ++ (c2 :: r2) := by
            rw [← hd, List.takeWhile_append_dropWhile]
          constructor
          · conv_lhs => rw [hs]
            simp [List.takeWhile_append_dropWhile]
          · simp
      · cases h

/-- A date-shaped position is nonempty. -/
theorem dateShapeAt_ne_nil (s : List Char) (h : dateShapeAt s = true) : s ≠ [] := by
  intro he
  subst he
  simp [dateShapeAt, isDigitAt] at h

/-- The bare-date matcher consumes. -/
theorem consumes_dateM : Consumes dateM := by
  intro prev s t r h
  simp only [dateM, dateRun] at h
  split at h
  · cases h
  · split at h
    · injection h with h2
      injection h2 with h3 h4
      subst h3
      subst h4
      refine ⟨(List.take_append_drop 10 s).symm, ?_⟩
      rename_i hshape
      simp [List.take_eq_nil_iff, dateShapeAt_ne_nil s hshape]
    · cases h

/-- The title-removal matcher consumes. -/
theorem consumes_titleM : Consumes titleM := by
  intro prev s t r h
  simp only [titleM, titleRun] at h
  rcases hp : projRun s with - | ⟨t1, r1⟩ <;> rw [hp] at h
  · rcases hc : ctxRun s with - | ⟨t1, r1⟩ <;> rw [hc] at h
    · rcases hpr : priRun s with - | ⟨t1, r1⟩ <;> rw [hpr] at h
      · rcases ht : tagRun s with - | ⟨t1, r1⟩ <;> rw [ht] at h
        · exact consumes_dateM prev s t r h
        · cases h
          exact consumes_tagM prev s _ _ ht
      · cases h
        exact consumes_priM prev s _ _ hpr
    · cases h
      exact consumes_ctxM prev s _ _ hc
  · cases h
    exact consumes_projM prev s _ _ hp

/-- Scanning the empty haystack yields nothing. -/
theorem findAllAux_nil (m : MatchFn) (fuel : Nat) (prev : Option Char) :
    findAllAux m fuel prev [] = [] := by
  cases fuel <;> rfl

/-- The fuel of `findAllAux` is irrelevant once it covers the haystack
length (every match consumes at least one character). -/
theorem findAllAux_stable (m : MatchFn) (hc : Consumes m) :
    ∀ (fuel1 fuel2 : Nat) (prev : Option Char) (s : List Char),
      s.length ≤ fuel1 → s.length ≤ fuel2 →
      findAllAux m fuel1 prev s = findAllAux m fuel2 prev s := by
  intro fuel1
  induction fuel1 with
  | zero =>
    intro fuel2 prev s h1 h2
    have hs : s = [] := List.eq_nil_of_length_eq_zero (Nat.le_zero.mp h1)
    subst hs
    rw [findAllAux_nil, findAllAux_nil]
  | succ f ih =>
    intro fuel2 prev s h1 h2
    rcases s with - | ⟨c, rest⟩
    · rw [findAllAux_nil, findAllAux_nil]
    · rcases fuel2 with - | f2
      · simp at h2
      · simp only [findAllAux]
        rcases hm : m prev (c :: rest) with - | ⟨t, r⟩
        · exact ih f2 (some c) rest (Nat.le_of_succ_le_succ h1) (Nat.le_of_succ_le_succ h2)
        · show t :: findAllAux m f t.getLast? r = t :: findAllAux m f2 t.getLast? r
          obtain ⟨heq, hne⟩ := hc prev (c :: rest) t r hm
          have hlen : r.length ≤ rest.length := by
            have h3 := congrArg List.length heq
            have ht1 : 1 ≤ t.length := by
              rcases t with - | ⟨c2, t2⟩
              · exact absurd rfl hne
              · simp
            simp at h3
            omega
          congr 1
          exact ih f2 t.getLast? r (le_trans hlen (Nat.le_of_succ_le_succ h1))
            (le_trans hlen (Nat.le_of_succ_le_succ h2))

/-- One scan step when the matcher fails at the current position. -/
theorem findAll_cons_none (m : MatchFn) (prev : Option Char) (c : Char)
    (rest : List Char) (hm : m prev (c :: rest) = none) :
    findAll m prev (c :: rest) = findAll m (some c) rest := by
  unfold findAll
  simp only [List.length_cons, findAllAux, hm]

/-- One scan step when the matcher fires at the current position. -/
theorem findAll_cons_some (m : MatchFn) (hc : Consumes m) (prev : Option Char)
    (s t r : List Char) (hm : m prev s = some (t, r)) :
    findAll m prev s = t :: findAll m t.getLast? r := by
  obtain ⟨heq, hne⟩ := hc prev s t r hm
  rcases s with - | ⟨c, rest⟩
  · exfalso
    exact hne (List.append_eq_nil.mp heq.symm).1
  · unfold findAll
    simp only [List.length_cons, findAllAux, hm]
    congr 1
    have hlen : r.length ≤ rest.length := by
      have h3 := congrArg List.length heq
      have ht1 : 1 ≤ t.length := by
        rcases t with - | ⟨c2, t2⟩
        · exact absurd rfl hne
        · simp
      simp at h3
      omega
    exact findAllAux_stable m hc rest.length r.length t.getLast? r hlen (le_refl _)

/-- `find` is the head of `find_iter`. -/
theorem findFirst_eq_head (m : MatchFn) (hc : Consumes m) :
    ∀ (prev : Option Char) (s : List Char),
      findFirst m prev s = (findAll m prev s).head? := by
  intro prev s
  induction s generalizing prev with
  | nil => rfl
  | cons c rest ih =>
    rcases hm : m prev (c :: rest) with - | ⟨t, r⟩
    · rw [findAll_cons_none m prev c rest hm]
      simp only [findFirst, hm]
      exact ih (some c)
    · rw [findAll_cons_some m hc prev _ t r hm]
      simp only [findFirst, hm]
      rfl

/-- For a matcher that ignores the lookbehind, the initial `prev` is
irrelevant to `findAllAux`. -/
theorem findAllAux_prev_irrel (m : MatchFn) (hm : ∀ p q s, m p s = m q s) :
    ∀ (fuel : Nat) (p q : Option Char) (s : List Char),
      findAllAux m fuel p s = findAllAux m fuel q s := by
  intro fuel
  induction fuel with
  | zero => intros; rfl
  | succ f ih =>
    intro p q s
    rcases s with - | ⟨c, rest⟩
    · rfl
    · simp only [findAllAux]
      rw [hm p q (c :: rest)]

/-- For a matcher that ignores the lookbehind, the initial `prev` is
irrelevant to `findAll`. -/
theorem findAll_prev_irrel (m : MatchFn) (hm : ∀ p q s, m p s = m q s)
    (p q : Option Char) (s : List Char) : findAll m p s = findAll m q s :=
  findAllAux_prev_irrel m hm _ p q s

/-- For a matcher that ignores the lookbehind, the initial `prev` is
irrelevant to `findFirst`. -/
theorem findFirst_prev_irrel (m : MatchFn) (hm : ∀ p q s, m p s = m q s) :
    ∀ (s : List Char) (p q : Option Char), findFirst m p s = findFirst m q s := by
  intro s
  induction s with
  | nil => intros; rfl
  | cons c rest ih =>
    intro p q
    simp only [findFirst]
    rw [hm p q (c :: rest)]

/-- `takeWhile` does not reach into a suffix on which the predicate fails. -/
theorem takeWhile_append_falseOn (p : Char → Bool) (l ws : List Char)
    (h : ∀ c ∈ ws, p c = false) : (l ++ ws).takeWhile p = l.takeWhile p := by
  induction l with
  | nil =>
    rcases ws with - | ⟨w, ws2⟩
    · rfl
    · simp [List.takeWhile_cons, h w (List.mem_cons_self ..)]
  | cons c l ih =>
    by_cases hp : p c = true
    · simp [List.takeWhile_cons, hp, ih]
    · simp only [Bool.not_eq_true] at hp
      simp [List.takeWhile_cons, hp]

/-- `dropWhile` keeps a suffix on which the predicate fails. -/
theorem dropWhile_append_falseOn (p : Char → Bool) (l ws : List Char)
    (h : ∀ c ∈ ws, p c = false) : (l ++ ws).dropWhile p = l.dropWhile p ++ ws := by
  induction l with
  | nil =>
    rcases ws with - | ⟨w, ws2⟩
    · rfl
    · simp [List.dropWhile_cons, h w (List.mem_cons_self ..)]
  | cons c l ih =>
    by_cases hp : p c = true
    · simp [List.dropWhile_cons, hp, ih]
    · simp only [Bool.not_eq_true] at hp
      simp [List.dropWhile_cons, hp]

/-- Whitespace characters are not word characters. -/
theorem isSpaceChar_not_word (c : Char) (h : isSpaceChar c = true) :
    isWordChar c = false := by
  simp only [isSpaceChar, Bool.or_eq_true, decide_eq_true_eq] at h
  rcases h with ((rfl | rfl) | rfl) | rfl <;> decide

/-- Whitespace characters are not `+`. -/
theorem isSpaceChar_ne_plus (c : Char) (h : isSpaceChar c = true) : c ≠ '+' := by
  simp only [isSpaceChar, Bool.or_eq_true, decide_eq_true_eq] at h
  rcases h with ((rfl | rfl) | rfl) | rfl <;> decide

/-- The project matcher fails unless the position starts with `+`. -/
theorem projRun_none_of_head (c : Char) (rest : List Char) (h : c ≠ '+') :
    projRun (c :: rest) = none := by
  simp [projRun, h]

/-- The project matcher over a string extended by trailing whitespace. -/
theorem projRun_append_ws (s ws : List Char) (hws : ∀ c ∈ ws, isSpaceChar c = true) :
    projRun (s ++ ws) = (projRun s).map (fun pr => (pr.1, pr.2 ++ ws)) := by
  have hwsw : ∀ c ∈ ws, isWordChar c = false :=
    fun c hc => isSpaceChar_not_word c (hws c hc)
  rcases s with - | ⟨c, rest⟩
  · rcases ws with - | ⟨w, ws2⟩
    · rfl
    · rw [List.nil_append,
        projRun_none_of_head w ws2 (isSpaceChar_ne_plus w (hws w (List.mem_cons_self ..)))]
      rfl
  · by_cases hc : c = '+'
    · subst hc
      simp only [List.cons_append, projRun, if_pos rfl,
        takeWhile_append_falseOn isWordChar rest ws hwsw,
        dropWhile_append_falseOn isWordChar rest ws hwsw]
      by_cases he : (List.takeWhile isWordChar rest).isEmpty = true
      · simp [he]
      · simp [he]
    · rw [List.cons_append, projRun_none_of_head c _ hc, projRun_none_of_head c _ hc]
      rfl

/-- Scanning for projects skips a whitespace prefix. -/
theorem findAll_proj_space_start (ws : List Char) (hws : ∀ c ∈ ws, isSpaceChar c = true) :
    ∀ (s : List Char) (p q : Option Char),
      findAll projM p (ws ++ s) = findAll projM q s := by
  induction ws with
  | nil =>
    intro s p q
    exact findAll_prev_irrel projM (fun _ _ _ => rfl) p q s
  | cons c ws ih =>
    intro s p q
    rw [List.cons_append,
      findAll_cons_none projM p c (ws ++ s)
        (projRun_none_of_head c _ (isSpaceChar_ne_plus c (hws c (List.mem_cons_self ..))))]
    exact ih (fun c2 h2 => hws c2 (List.mem_cons_of_mem _ h2)) s (some c) q

/-- Scanning for projects ignores trailing whitespace. -/
theorem findAll_proj_append_ws (ws : List Char) (hws : ∀ c ∈ ws, isSpaceChar c = true) :
    ∀ (n : Nat) (s : List Char), s.length ≤ n → ∀ (p : Option Char),
      findAll projM p (s ++ ws) = findAll projM p s := by
  intro n
  induction n with
  | zero =>
    intro s hlen p
    have hs : s = [] := List.eq_nil_of_length_eq_zero (Nat.le_zero.mp hlen)
    subst hs
    rw [List.nil_append]
    have h0 := findAll_proj_space_start ws hws [] p p
    rwa [List.append_nil] at h0
  | succ n ih =>
    intro s hlen p
    rcases s with - | ⟨c, rest⟩
    · rw [List.nil_append]
      have h0 := findAll_proj_space_start ws hws [] p p
      rwa [List.append_nil] at h0
    · rcases hm : projRun (c :: rest) with - | ⟨t, r⟩
      · have hm2 : projRun ((c :: rest) ++ ws) = none := by
          rw [projRun_append_ws _ _ hws, hm]
          rfl
        rw [List.cons_append] at hm2
        rw [List.cons_append, findAll_cons_none projM p c (rest ++ ws) hm2,
          findAll_cons_none projM p c rest hm]
        exact ih rest (Nat.le_of_succ_le_succ hlen) (some c)
      · have hm2 : projRun ((c :: rest) ++ ws) = some (t, r ++ ws) := by
          rw [projRun_append_ws _ _ hws, hm]
          rfl
        obtain ⟨heq, hne⟩ := consumes_projM p (c :: rest) t r hm
        rw [findAll_cons_some projM consumes_projM p _ t (r ++ ws) hm2,
          findAll_cons_some projM consumes_projM p _ t r hm]
        congr 1
        have hlen2 : r.length ≤ n := by
          have h3 : (c :: rest).length = (t ++ r).length := by rw [heq]
          simp only [List.length_cons, List.length_append] at h3
          have ht1 : 1 ≤ t.length := by
            rcases t with - | ⟨c2, t2⟩
            · exact absurd rfl hne
            · simp
          simp only [List.length_cons] at hlen
          omega
        exact ih r hlen2 t.getLast?

/-- Scanning for projects is invariant under `str::trim`. -/
theorem findAll_proj_trim (l : List Char) (p q : Option Char) :
    findAll projM p (trimChars l) = findAll projM q l := by
  obtain ⟨ws2, heq2, hws2⟩ :
      ∃ ws2, l.dropWhile isSpaceChar = trimChars l ++ ws2 ∧
        ∀ c ∈ ws2, isSpaceChar c = true := by
    refine ⟨((l.dropWhile isSpaceChar).reverse.takeWhile isSpaceChar).reverse, ?_, ?_⟩
    · rw [trimChars, dropTrailingSpaces]
      conv_lhs => rw [← (l.dropWhile isSpaceChar).reverse_reverse,
        ← List.takeWhile_append_dropWhile isSpaceChar (l.dropWhile isSpaceChar).reverse,
        List.reverse_append]
    · intro c hc
      exact List.mem_takeWhile_imp (List.mem_reverse.mp hc)
  calc findAll projM p (trimChars l)
      = findAll projM p (trimChars l ++ ws2) :=
        (findAll_proj_append_ws ws2 hws2 (trimChars l).length _ (le_refl _) p).symm
    _ = findAll projM p (l.dropWhile isSpaceChar) := by rw [heq2]
    _ = findAll projM q l := by
        conv_rhs => rw [← List.takeWhile_append_dropWhile isSpaceChar l]
        exact (findAll_proj_space_start (l.takeWhile isSpaceChar)
          (fun c h => List.mem_takeWhile_imp h) (l.dropWhile isSpaceChar) q p).symm

/-- The marker strip of `Todo::parse` does not change the project matches. -/
theorem findAll_proj_parseContent (line : String) :
    findAll projM none (parseContent line).data = findAll projM none line.data := by
  rw [parseContent]
  by_cases hx : startsX line = true
  · rw [if_pos hx]
    rcases hl : line.data with - | ⟨c, rest⟩
    · rw [startsX, hl] at hx
      cases hx
    · have hc : c = 'x' := by
        rw [startsX, hl] at hx
        simpa using hx
      subst hc
      show findAll projM none (trimChars (('x' :: rest).drop 1)) = _
      rw [List.drop_succ_cons, List.drop_zero]
      rw [findAll_proj_trim rest none none]
      rw [findAll_cons_none projM none 'x' rest (projRun_none_of_head 'x' rest (by decide))]
      exact (findAll_prev_irrel projM (fun _ _ _ => rfl) (some 'x') none rest).symm
  · rw [if_neg hx]

/-- C5 (confirmed): when the line's `+word` tokens are exactly one occurrence
`+foo`, a successful parse extracts `project = Some "foo"`; with two or more
`+word` tokens the project is the first occurrence, with the leading `+`
removed. -/
theorem c5_project_first (line : String) (t : Todo) (h : Todo.parse line = .ok t) :
    (∀ foo : List Char, findAll projM none line.data = ['+' :: foo] →
        t.project = some (String.mk foo)) ∧
    (∀ (foo m2 : List Char) (ms : List (List Char)),
        findAll projM none line.data = ('+' :: foo) :: m2 :: ms →
        t.project = some (String.mk foo)) := by
  obtain ⟨-, -, hproj, -⟩ := parse_ok_fields line t h
  have hkey : t.project =
      ((findAll projM none line.data).head?).map (fun p => String.mk (p.drop 1)) := by
    rw [hproj, projectOf, findFirst_eq_head projM consumes_projM, findAll_proj_parseContent]
  constructor
  · intro foo hfind
    rw [hkey, hfind]
    rfl
  · intro foo m2 ms hfind
    rw [hkey, hfind]
    rfl

/-- Witness for C5: both parts on concrete lines. -/
theorem c5_witness :
    (⟨"task", false, none, none, none, some "foo", none, [], "task +foo"⟩ : Todo).project
        = some "foo" ∧
    (⟨"c", false, none, none, none, some "a", none, [], "c +a +b"⟩ : Todo).project
        = some "a" := by
  constructor
  · exact (c5_project_first "task +foo" _ (by decide)).1 "foo".data (by decide)
  · exact (c5_project_first "c +a +b" _ (by decide)).2 "a".data "+b".data [] (by decide)

/-- Replacing in the empty haystack yields nothing. -/
theorem replaceAllAux_nil (m : MatchFn) (fuel : Nat) (prev : Option Char) :
    replaceAllAux m fuel prev [] = [] := by
  cases fuel <;> rfl

/-- The fuel of `replaceAllAux` is irrelevant once it covers the haystack. -/
theorem replaceAllAux_stable (m : MatchFn) (hc : Consumes m) :
    ∀ (fuel1 fuel2 : Nat) (prev : Option Char) (s : List Char),
      s.length ≤ fuel1 → s.length ≤ fuel2 →
      replaceAllAux m fuel1 prev s = replaceAllAux m fuel2 prev s := by
  intro fuel1
  induction fuel1 with
  | zero =>
    intro fuel2 prev s h1 h2
    have hs : s = [] := List.eq_nil_of_length_eq_zero (Nat.le_zero.mp h1)
    subst hs
    rw [replaceAllAux_nil, replaceAllAux_nil]
  | succ f ih =>
    intro fuel2 prev s h1 h2
    rcases s with - | ⟨c, rest⟩
    · rw [replaceAllAux_nil, replaceAllAux_nil]
    · rcases fuel2 with - | f2
      · simp at h2
      · simp only [replaceAllAux]
        rcases hm : m prev (c :: rest) with - | ⟨t, r⟩
        · show c :: replaceAllAux m f (some c) rest = c :: replaceAllAux m f2 (some c) rest
          congr 1
          exact ih f2 (some c) rest (Nat.le_of_succ_le_succ h1) (Nat.le_of_succ_le_succ h2)
        · show replaceAllAux m f t.getLast? r = replaceAllAux m f2 t.getLast? r
          obtain ⟨heq, hne⟩ := hc prev (c :: rest) t r hm
          have hlen : r.length ≤ rest.length := by
            have h3 : (c :: rest).length = (t ++ r).length := by rw [heq]
            simp only [List.length_cons, List.length_append] at h3
            have ht1 : 1 ≤ t.length := by
              rcases t with - | ⟨c2, t2⟩
              · exact absurd rfl hne
              · simp
            omega
          exact ih f2 t.getLast? r (le_trans hlen (Nat.le_of_succ_le_succ h1))
            (le_trans hlen (Nat.le_of_succ_le_succ h2))

/-- One replacement step when the matcher fails: keep the character. -/
theorem replaceAll_cons_none (m : MatchFn) (prev : Option Char) (c : Char)
    (rest : List Char) (hm : m prev (c :: rest) = none) :
    replaceAll m prev (c :: rest) = c :: replaceAll m (some c) rest := by
  unfold replaceAll
  simp only [List.length_cons, replaceAllAux, hm]

/-- One replacement step when the matcher fires: drop the match. -/
theorem replaceAll_cons_some (m : MatchFn) (hc : Consumes m) (prev : Option Char)
    (s t r : List Char) (hm : m prev s = some (t, r)) :
    replaceAll m prev s = replaceAll m t.getLast? r := by
  obtain ⟨heq, hne⟩ := hc prev s t r hm
  rcases s with - | ⟨c, rest⟩
  · exact absurd (List.append_eq_nil.mp heq.symm).1 hne
  · unfold replaceAll
    simp only [List.length_cons, replaceAllAux, hm]
    have hlen : r.length ≤ rest.length := by
      have h3 : (c :: rest).length = (t ++ r).length := by rw [heq]
      simp only [List.length_cons, List.length_append] at h3
      have ht1 : 1 ≤ t.length := by
        rcases t with - | ⟨c2, t2⟩
        · exact absurd rfl hne
        · simp
      omega
    exact replaceAllAux_stable m hc rest.length r.length t.getLast? r hlen (le_refl _)

/-- A chunk on which the matcher fails everywhere is skipped by `findAll`. -/
theorem fails_findAll (m : MatchFn) :
    ∀ (a : List Char) (prev : Option Char) (b : List Char), Fails m prev a b →
      findAll m prev (a ++ b) = findAll m (lastOr prev a) b := by
  intro a
  induction a with
  | nil => intro prev b h; rfl
  | cons c a ih =>
    intro prev b h
    obtain ⟨h1, h2⟩ := h
    rw [List.cons_append, findAll_cons_none m prev c (a ++ b) h1]
    exact ih (some c) b h2

/-- A chunk on which the matcher fails everywhere is skipped by `findFirst`. -/
theorem fails_findFirst (m : MatchFn) :
    ∀ (a : List Char) (prev : Option Char) (b : List Char), Fails m prev a b →
      findFirst m prev (a ++ b) = findFirst m (lastOr prev a) b := by
  intro a
  induction a with
  | nil => intro prev b h; rfl
  | cons c a ih =>
    intro prev b h
    obtain ⟨h1, h2⟩ := h
    rw [List.cons_append]
    simp only [findFirst, h1]
    exact ih (some c) b h2

/-- A chunk on which the matcher fails everywhere is copied by `replaceAll`. -/
theorem fails_replaceAll (m : MatchFn) :
    ∀ (a : List Char) (prev : Option Char) (b : List Char), Fails m prev a b →
      replaceAll m prev (a ++ b) = a ++ replaceAll m (lastOr prev a) b := by
  intro a
  induction a with
  | nil => intro prev b h; rfl
  | cons c a ih =>
    intro prev b h
    obtain ⟨h1, h2⟩ := h
    rw [List.cons_append, replaceAll_cons_none m prev c (a ++ b) h1, ih (some c) b h2]
    rfl

/-- Concatenating two failing chunks. -/
theorem Fails_concat (m : MatchFn) :
    ∀ (a : List Char) (prev : Option Char) (a2 b : List Char),
      Fails m prev a (a2 ++ b) → Fails m (lastOr prev a) a2 b →
      Fails m prev (a ++ a2) b := by
  intro a
  induction a with
  | nil => intro prev a2 b h1 h2; exact h2
  | cons c a ih =>
    intro prev a2 b h1 h2
    obtain ⟨h3, h4⟩ := h1
    refine ⟨?_, ih (some c) a2 b h4 h2⟩
    show m prev (c :: ((a ++ a2) ++ b)) = none
    rw [List.append_assoc]
    exact h3

/-- A matcher that fails on every character of the chunk (for any suffix)
fails on the whole chunk. -/
theorem fails_of_none_heads (m : MatchFn) :
    ∀ (a : List Char) (prev : Option Char) (b : List Char),
      (∀ (p : Option Char) (c : Char) (s2 : List Char), c ∈ a → m p (c :: s2) = none) →
      Fails m prev a b := by
  intro a
  induction a with
  | nil => intro prev b h; trivial
  | cons c a ih =>
    intro prev b h
    exact ⟨h prev c (a ++ b) (List.mem_cons_self ..),
      ih (some c) b (fun p c2 s2 h2 => h p c2 s2 (List.mem_cons_of_mem _ h2))⟩

/-- Only the very first matcher call sees the initial `prev`; if the matcher
cannot distinguish `p` from `q`, neither can `findAll`. -/
theorem findAll_init_prev (m : MatchFn) (p q : Option Char)
    (hm : ∀ s2, m p s2 = m q s2) (s : List Char) :
    findAll m p s = findAll m q s := by
  rcases s with - | ⟨c, rest⟩
  · rfl
  · unfold findAll
    simp only [List.length_cons, findAllAux]
    rw [hm (c :: rest)]

/-- Initial-`prev` irrelevance for `findFirst`. -/
theorem findFirst_init_prev (m : MatchFn) (p q : Option Char)
    (hm : ∀ s2, m p s2 = m q s2) (s : List Char) :
    findFirst m p s = findFirst m q s := by
  rcases s with - | ⟨c, rest⟩
  · rfl
  · simp only [findFirst]
    rw [hm (c :: rest)]

/-- Initial-`prev` irrelevance for `replaceAll`. -/
theorem replaceAll_init_prev (m : MatchFn) (p q : Option Char)
    (hm : ∀ s2, m p s2 = m q s2) (s : List Char) :
    replaceAll m p s = replaceAll m q s := by
  rcases s with - | ⟨c, rest⟩
  · rfl
  · unfold replaceAll
    simp only [List.length_cons, replaceAllAux]
    rw [hm (c :: rest)]

/-- C1 counterexample: on the canonical two-date line, re-parsing the render
swaps creation and completion, so `parse(render(parse(line)))` differs from
`parse(line)` in the `creation` (and `completion`) field. -/
theorem c1_counterexample :
    (Todo.parse "x (A) 2024-08-15 2024-09-20 Hello World +hello @wow due:123").map
        (fun t => (t.creation, t.completion)) =
      .ok (some ⟨2024, 8, 15⟩, some ⟨2024, 9, 20⟩) ∧
    (match Todo.parse "x (A) 2024-08-15 2024-09-20 Hello World +hello @wow due:123" with
      | .ok t => (Todo.parse (Todo.render t)).map (fun u : Todo => (u.creation, u.completion))
      | o => o.map (fun t : Todo => (t.creation, t.completion))) =
      .ok (some ⟨2024, 9, 20⟩, some ⟨2024, 8, 15⟩) := by
  decide

/-- Enumerate the whitespace characters. -/
theorem isSpaceChar_cases (c : Char) (h : isSpaceChar c = true) :
    c = ' ' ∨ c = '\t' ∨ c = '\n' ∨ c = '\r' := by
  simp only [isSpaceChar, Bool.or_eq_true, decide_eq_true_eq] at h
  tauto

/-- Character-class facts about whitespace. -/
theorem isSpaceChar_props (c : Char) (h : isSpaceChar c = true) :
    isWordChar c = false ∧ isDigitChar c = false ∧ c ≠ '+' ∧ c ≠ '@' ∧ c ≠ '(' ∧
      c ≠ 'x' ∧ c ≠ ':' := by
  rcases isSpaceChar_cases c h with rfl | rfl | rfl | rfl <;>
    exact ⟨by decide, by decide, by decide, by decide, by decide, by decide, by decide⟩

/-- Character-class facts about word characters. -/
theorem isWordChar_props (c : Char) (h : isWordChar c = true) :
    isSpaceChar c = false ∧ isNonSpace c = true ∧ c ≠ '+' ∧ c ≠ '@' ∧ c ≠ '(' ∧
      c ≠ ')' ∧ c ≠ ':' ∧ c ≠ '-' ∧ c ≠ ' ' := by
  have hsp : isSpaceChar c = false := by
    rcases hs : isSpaceChar c with - | -
    · rfl
    · rw [(isSpaceChar_props c hs).1] at h
      cases h
  refine ⟨hsp, by simp [isNonSpace, hsp], ?_, ?_, ?_, ?_, ?_, ?_, ?_⟩ <;>
    (intro he; subst he; exact absurd h (by decide))

/-- Character-class facts about letters. -/
theorem isAlpha_props (c : Char) (h : c.isAlpha = true) :
    isWordChar c = true ∧ isSpaceChar c = false ∧ isDigitChar c = false ∧
      c ≠ '+' ∧ c ≠ '@' ∧ c ≠ '(' ∧ c ≠ ':' ∧ c ≠ '-' := by
  have hw : isWordChar c = true := by simp [isWordChar, Char.isAlphanum, h]
  have hd : isDigitChar c = false := by
    simp only [Char.isAlpha, Char.isUpper, Char.isLower, Bool.or_eq_true,
      Bool.and_eq_true, decide_eq_true_eq, Char.le_def, UInt32.le_def,
      BitVec.le_def] at h
    simp only [isDigitChar, Char.isDigit, Bool.and_eq_false_iff,
      decide_eq_false_iff_not, Char.le_def, UInt32.le_def, BitVec.le_def]
    have e1 : (UInt32.toBitVec 48).toNat = 48 := by decide
    have e2 : (UInt32.toBitVec 57).toNat = 57 := by decide
    have e3 : (UInt32.toBitVec 65).toNat = 65 := by decide
    have e4 : (UInt32.toBitVec 90).toNat = 90 := by decide
    have e5 : (UInt32.toBitVec 97).toNat = 97 := by decide
    have e6 : (UInt32.toBitVec 122).toNat = 122 := by decide
    rw [e1, e2]
    rw [e3, e4, e5, e6] at h
    omega
  obtain ⟨h1, -, h3, h4, h5, -, h7, h8, -⟩ := isWordChar_props c hw
  exact ⟨hw, h1, hd, h3, h4, h5, h7, h8⟩

/-- Character-class facts about rendered digits. -/
theorem digitChar_props (n : Nat) :
    isDigitChar (digitChar (n % 10)) = true ∧ isWordChar (digitChar (n % 10)) = true ∧
      isSpaceChar (digitChar (n % 10)) = false ∧ digitChar (n % 10) ≠ 'x' ∧
      digitChar (n % 10) ≠ '-' ∧ digitChar (n % 10) ≠ '+' ∧ digitChar (n % 10) ≠ '@' ∧
      digitChar (n % 10) ≠ '(' ∧ digitChar (n % 10) ≠ ':' ∧ digitChar (n % 10) ≠ ' ' := by
  have h10 : n % 10 < 10 := Nat.mod_lt _ (by norm_num)
  revert h10
  generalize n % 10 = k
  intro h10
  interval_cases k <;>
    exact ⟨by decide, by decide, by decide, by decide, by decide, by decide, by decide,
      by decide, by decide, by decide⟩

/-- Reading back a rendered digit gives the digit. -/
theorem charDigit_digitChar_mod (n : Nat) : charDigit (digitChar (n % 10)) = n % 10 := by
  have h10 : n % 10 < 10 := Nat.mod_lt _ (by norm_num)
  revert h10
  generalize n % 10 = k
  intro h10
  interval_cases k <;> decide

/-- The context matcher fails unless the position starts with `@`. -/
theorem ctxRun_none_of_head (c : Char) (rest : List Char) (h : c ≠ '@') :
    ctxRun (c :: rest) = none := by
  simp [ctxRun, h]

/-- The priority matcher fails unless the position starts with `(`. -/
theorem priRun_none_of_head (c : Char) (rest : List Char) (h : c ≠ '(') :
    priRun (c :: rest) = none := by
  simp [priRun, h]

/-- The tag matcher fails on a non-word head. -/
theorem tagRun_none_of_head (c : Char) (rest : List Char) (h : isWordChar c = false) :
    tagRun (c :: rest) = none := by
  simp [tagRun, List.takeWhile_cons, h]

/-- The bare-date matcher fails on a non-digit head. -/
theorem dateRun_none_of_head (prev : Option Char) (c : Char) (rest : List Char)
    (h : isDigitChar c = false) : dateRun prev (c :: rest) = none := by
  unfold dateRun
  have hsh : dateShapeAt (c :: rest) = false := by
    simp [dateShapeAt, isDigitAt, h]
  rw [hsh]
  simp

/-- The title-removal matcher fails on a whitespace head. -/
theorem titleRun_none_of_space (prev : Option Char) (c : Char) (rest : List Char)
    (h : isSpaceChar c = true) : titleRun prev (c :: rest) = none := by
  obtain ⟨hw, hd, hplus, hat, hpar, -, -⟩ := isSpaceChar_props c h
  simp [titleRun, projRun_none_of_head c rest hplus, ctxRun_none_of_head c rest hat,
    priRun_none_of_head c rest hpar, tagRun_none_of_head c rest hw,
    dateRun_none_of_head prev c rest hd]

/-- `takeWhile`/`dropWhile` on a block of satisfying characters followed by a
stopping continuation. -/
theorem takeWhile_block (p : Char → Bool) (l b : List Char)
    (hl : ∀ x ∈ l, p x = true) (hb : ∀ c, b.head? = some c → p c = false) :
    (l ++ b).takeWhile p = l ∧ (l ++ b).dropWhile p = b := by
  induction l with
  | nil =>
    rcases b with - | ⟨c, rest⟩
    · exact ⟨rfl, rfl⟩
    · have hc := hb c rfl
      simp [List.takeWhile_cons, List.dropWhile_cons, hc]
  | cons x l ih =>
    have hx := hl x (List.mem_cons_self ..)
    have ih2 := ih (fun y hy => hl y (List.mem_cons_of_mem _ hy))
    simp [List.takeWhile_cons, List.dropWhile_cons, hx, ih2.1, ih2.2]

/-- The project matcher fires on a rendered `+word` token. -/
theorem projRun_match (p b : List Char) (hp : p ≠ [])
    (hw : ∀ x ∈ p, isWordChar x = true)
    (hb : ∀ c, b.head? = some c → isWordChar c = false) :
    projRun ('+' :: (p ++ b)) = some ('+' :: p, b) := by
  obtain ⟨h1, h2⟩ := takeWhile_block isWordChar p b hw hb
  simp [projRun, h1, h2, hp]

/-- The context matcher fires on a rendered `@word` token. -/
theorem ctxRun_match (p b : List Char) (hp : p ≠ [])
    (hw : ∀ x ∈ p, isWordChar x = true)
    (hb : ∀ c, b.head? = some c → isWordChar c = false) :
    ctxRun ('@' :: (p ++ b)) = some ('@' :: p, b) := by
  obtain ⟨h1, h2⟩ := takeWhile_block isWordChar p b hw hb
  simp [ctxRun, h1, h2, hp]

/-- The priority matcher fires on a rendered `(word)` token. -/
theorem priRun_match (p b : List Char) (hp : p ≠ [])
    (hw : ∀ x ∈ p, isWordChar x = true) :
    priRun ('(' :: (p ++ ')' :: b)) = some ('(' :: p ++ [')'], b) := by
  obtain ⟨h1, h2⟩ := takeWhile_block isWordChar p (')' :: b) hw
    (fun c hc => by
      injection hc with hc2
      subst hc2
      decide)
  simp [priRun, h1, h2, hp]

/-- Word characters are non-space. -/
theorem isNonSpace_of_word (c : Char) (h : isWordChar c = true) : isNonSpace c = true :=
  (isWordChar_props c h).2.1

/-- The tag matcher fires on a rendered `k:v` token. -/
theorem tagRun_match (k v b : List Char) (hk : k ≠ []) (hv : v ≠ [])
    (hwk : ∀ x ∈ k, isWordChar x = true) (hwv : ∀ x ∈ v, isWordChar x = true)
    (hb : ∀ c, b.head? = some c → c = ' ') :
    tagRun (k ++ ':' :: (v ++ b)) = some (k ++ ':' :: v, b) := by
  obtain ⟨h1, h2⟩ := takeWhile_block isWordChar k (':' :: (v ++ b)) hwk
    (fun c hc => by
      injection hc with hc2
      subst hc2
      decide)
  obtain ⟨h3, h4⟩ := takeWhile_block isNonSpace v b
    (fun x hx => isNonSpace_of_word x (hwv x hx))
    (fun c hc => by
      have := hb c hc
      subst this
      decide)
  simp [tagRun, h1, h2, h3, h4, hk, hv]

/-- One failing digit position refutes the date shape. -/
theorem dateShapeAt_false_of_digit (s : List Char) (i : Nat)
    (hi : i = 0 ∨ i = 1 ∨ i = 2 ∨ i = 3 ∨ i = 5 ∨ i = 6 ∨ i = 8 ∨ i = 9)
    (h : isDigitAt s i = false) : dateShapeAt s = false := by
  rcases hi with rfl | rfl | rfl | rfl | rfl | rfl | rfl | rfl <;> simp [dateShapeAt, h]

/-- One failing dash position refutes the date shape. -/
theorem dateShapeAt_false_of_char (s : List Char) (i : Nat) (hi : i = 4 ∨ i = 7)
    (h : charAt s i '-' = false) : dateShapeAt s = false := by
  rcases hi with rfl | rfl <;> simp [dateShapeAt, h]

/-- No date shape can start inside a block of word characters and spaces that
is followed by a non-digit, non-dash boundary. -/
theorem dateShapeAt_false_block (a b : List Char) (ha : a ≠ [])
    (haw : ∀ c ∈ a, isWordChar c = true ∨ c = ' ')
    (hb : ∀ c, b.head? = some c → isDigitChar c = false ∧ c ≠ '-') :
    dateShapeAt (a ++ b) = false := by
  by_cases h5 : 5 ≤ a.length
  · have h4 : 4 < a.length := by omega
    have hget : (a ++ b)[4]? = some a[4] := by
      rw [List.getElem?_append_left h4]
      exact List.getElem?_eq_getElem h4
    apply dateShapeAt_false_of_char _ 4 (Or.inl rfl)
    have hmem : a[4] ∈ a := List.getElem_mem h4
    rcases haw _ hmem with hw | hsp
    · simp [charAt, hget, (isWordChar_props _ hw).2.2.2.2.2.2.2.1]
    · simp [charAt, hget, hsp]
  · have hlen1 : 1 ≤ a.length := List.length_pos.mpr ha
    rcases hbv : b with - | ⟨c0, b2⟩
    · apply dateShapeAt_false_of_char _ 4 (Or.inl rfl)
      have hnone : a[4]? = none := List.getElem?_eq_none (by omega)
      simp [charAt, hbv, hnone]
    · obtain ⟨hd0, hm0⟩ := hb c0 (by rw [hbv]; rfl)
      subst hbv
      have hidx : (a ++ c0 :: b2)[a.length]? = some c0 := by
        rw [List.getElem?_append_right (le_refl _)]
        simp
      have h14 : a.length = 1 ∨ a.length = 2 ∨ a.length = 3 ∨ a.length = 4 := by omega
      rcases h14 with h1 | h1 | h1 | h1
      · apply dateShapeAt_false_of_digit _ 1 (by tauto)
        rw [h1] at hidx
        simp [isDigitAt, hidx, hd0]
      · apply dateShapeAt_false_of_digit _ 2 (by tauto)
        rw [h1] at hidx
        simp [isDigitAt, hidx, hd0]
      · apply dateShapeAt_false_of_digit _ 3 (by tauto)
        rw [h1] at hidx
        simp [isDigitAt, hidx, hd0]
      · apply dateShapeAt_false_of_char _ 4 (Or.inl rfl)
        rw [h1] at hidx
        simp [charAt, hidx, hm0]

/-- The bare-date matcher fails everywhere inside a block of word characters
and spaces followed by a non-digit, non-dash boundary. -/
theorem fails_date_block (a b : List Char)
    (haw : ∀ c ∈ a, isWordChar c = true ∨ c = ' ')
    (hb : ∀ c, b.head? = some c → isDigitChar c = false ∧ c ≠ '-') :
    ∀ prev, Fails dateM prev a b := by
  induction a with
  | nil => intro prev; trivial
  | cons c a ih =>
    intro prev
    refine ⟨?_, ih (fun x hx => haw x (List.mem_cons_of_mem _ hx)) (some c)⟩
    show dateRun prev (c :: (a ++ b)) = none
    unfold dateRun
    by_cases hp : prev = some ':'
    · simp [hp]
    · have hfalse : dateShapeAt ((c :: a) ++ b) = false :=
        dateShapeAt_false_block (c :: a) b (by simp) haw hb
      rw [List.cons_append] at hfalse
      simp [hp, hfalse]

/-- Scanning a word-and-space block, `dropWhile isWordChar` stops at a space
of the block or at the head of the continuation. -/
theorem dropWhile_word_head_block (a b : List Char)
    (haw : ∀ c ∈ a, isWordChar c = true ∨ c = ' ')
    (hb : ∀ c, b.head? = some c → isWordChar c = false) :
    ∀ c2, ((a ++ b).dropWhile isWordChar).head? = some c2 →
      c2 = ' ' ∨ b.head? = some c2 := by
  induction a with
  | nil =>
    intro c2 h2
    right
    rcases hbv : b with - | ⟨c0, b2⟩
    · rw [hbv] at h2
      cases h2
    · have h0 := hb c0 (by rw [hbv]; rfl)
      rw [hbv, List.nil_append, List.dropWhile_cons, h0] at h2
      simpa using h2
  | cons c1 a ih =>
    intro c2 h2
    rcases haw c1 (List.mem_cons_self ..) with hw | hsp
    · rw [List.cons_append, List.dropWhile_cons, hw] at h2
      simp only [if_true] at h2
      exact ih (fun x hx => haw x (List.mem_cons_of_mem _ hx)) c2 h2
    · subst hsp
      have hw0 : isWordChar ' ' = false := by decide
      rw [List.cons_append, List.dropWhile_cons, hw0] at h2
      simp only [Bool.false_eq_true, if_false, List.head?_cons, Option.some.injEq] at h2
      exact Or.inl h2.symm

/-- The tag matcher fails everywhere inside a block of word characters and
spaces followed by a non-word, non-colon boundary. -/
theorem fails_tag_block (a b : List Char)
    (haw : ∀ c ∈ a, isWordChar c = true ∨ c = ' ')
    (hb : ∀ c, b.head? = some c → isWordChar c = false ∧ c ≠ ':') :
    ∀ prev, Fails tagM prev a b := by
  induction a with
  | nil => intro prev; trivial
  | cons c a ih =>
    intro prev
    refine ⟨?_, ih (fun x hx => haw x (List.mem_cons_of_mem _ hx)) (some c)⟩
    show tagRun (c :: (a ++ b)) = none
    rcases hdw : (c :: (a ++ b)).dropWhile isWordChar with - | ⟨c2, r2⟩
    · simp only [tagRun, hdw]
      split
      · rfl
      · rfl
    · have hc2 : c2 = ' ' ∨ b.head? = some c2 := by
        have := dropWhile_word_head_block (c :: a) b haw
          (fun x hx => (hb x hx).1) c2
        rw [List.cons_append] at this
        exact this (by rw [hdw]; rfl)
      have hne : ¬ c2 = ':' := by
        rcases hc2 with rfl | hbh
        · decide
        · exact (hb c2 hbh).2
      simp only [tagRun, hdw]
      split
      · rfl
      · simp [hne]

/-- A rendered date token has ten characters. -/
theorem dateChars_length (d : Date) : (dateChars d).length = 10 := by
  simp [dateChars, digit4, digit2]

/-- The date shape holds at a rendered date token. -/
theorem dateShapeAt_dateChars (d : Date) (b : List Char) :
    dateShapeAt (dateChars d ++ b) = true := by
  simp [dateShapeAt, dateChars, digit4, digit2, isDigitAt, charAt,
    (digitChar_props (d.year / 1000)).1, (digitChar_props (d.year / 100)).1,
    (digitChar_props (d.year / 10)).1, (digitChar_props d.year).1,
    (digitChar_props (d.month / 10)).1, (digitChar_props d.month).1,
    (digitChar_props (d.day / 10)).1, (digitChar_props d.day).1]

/-- The bare-date matcher fires on a rendered date token. -/
theorem dateRun_match (prev : Option Char) (hprev : PrevOk prev) (d : Date)
    (b : List Char) : dateRun prev (dateChars d ++ b) = some (dateChars d, b) := by
  have hp : ¬ prev = some ':' := fun he => hprev ':' he rfl
  unfold dateRun
  rw [if_neg hp, if_pos (dateShapeAt_dateChars d b), List.take_left' (dateChars_length d),
    List.drop_left' (dateChars_length d)]

/-- Reading back a rendered valid date gives the same date. -/
theorem parseDate10_dateChars (d : Date) (h : wfDate (some d) = true) :
    parseDate10 (dateChars d) = some d := by
  obtain ⟨hv, hy⟩ : dateValid d.year d.month d.day = true ∧ d.year ≤ 9999 := by
    simpa [wfDate] using h
  obtain ⟨y, mo, da⟩ := d
  simp only at hv hy ⊢
  have e1 := charDigit_digitChar_mod (y / 1000)
  have e2 := charDigit_digitChar_mod (y / 100)
  have e3 := charDigit_digitChar_mod (y / 10)
  have e4 := charDigit_digitChar_mod y
  have e5 := charDigit_digitChar_mod (mo / 10)
  have e6 := charDigit_digitChar_mod mo
  have e7 := charDigit_digitChar_mod (da / 10)
  have e8 := charDigit_digitChar_mod da
  have hvm : 1 ≤ mo ∧ mo ≤ 12 ∧ 1 ≤ da ∧ da ≤ 31 := by
    simp only [dateValid, Bool.and_eq_true, decide_eq_true_eq] at hv
    have hd31 : daysInMonth y mo ≤ 31 := by
      unfold daysInMonth
      split
      · split <;> omega
      · split <;> omega
    omega
  have hyeq : y / 1000 % 10 * 1000 + y / 100 % 10 * 100 + y / 10 % 10 * 10 + y % 10 = y := by
    omega
  have hmoeq : mo / 10 % 10 * 10 + mo % 10 = mo := by omega
  have hdaeq : da / 10 % 10 * 10 + da % 10 = da := by omega
  simp only [dateChars, digit4, digit2, parseDate10, List.cons_append, List.nil_append,
    List.all_cons, List.all_nil,
    (digitChar_props (y / 1000)).1, (digitChar_props (y / 100)).1,
    (digitChar_props (y / 10)).1, (digitChar_props y).1,
    (digitChar_props (mo / 10)).1, (digitChar_props mo).1,
    (digitChar_props (da / 10)).1, (digitChar_props da).1,
    e1, e2, e3, e4, e5, e6, e7, e8, hyeq, hmoeq, hdaeq, hv]
  simp

/-- Word-token facts from `wfWord`. -/
theorem wfWord_elim (l : List Char) (h : wfWord l = true) :
    l ≠ [] ∧ ∀ c ∈ l, isWordChar c = true := by
  simp only [wfWord, Bool.and_eq_true, Bool.not_eq_true', List.all_eq_true] at h
  refine ⟨fun he => ?_, h.2⟩
  rw [he] at h
  simp at h

/-- A spaced tail yields a non-word, non-colon boundary. -/
theorem spacedTail_word_bdry (b : List Char) (hb : SpacedTail b) :
    ∀ c, b.head? = some c → isWordChar c = false ∧ c ≠ ':' := by
  intro c hc
  have := hb c hc
  subst this
  exact ⟨by decide, by decide⟩

/-- A spaced tail yields a non-digit, non-dash boundary. -/
theorem spacedTail_date_bdry (b : List Char) (hb : SpacedTail b) :
    ∀ c, b.head? = some c → isDigitChar c = false ∧ c ≠ '-' := by
  intro c hc
  have := hb c hc
  subst this
  exact ⟨by decide, by decide⟩

/-- The project, context, tag and bare-date matchers all fail inside a
rendered ` (P)` fragment. -/
theorem fails_priPart (pr : Option String) (hpr : wfOptStr wfWord pr = true)
    (b : List Char) (prev : Option Char) :
    Fails projM prev (priPart pr) b ∧ Fails ctxM prev (priPart pr) b ∧
      Fails tagM prev (priPart pr) b ∧ Fails dateM prev (priPart pr) b := by
  rcases pr with - | p
  · exact ⟨trivial, trivial, trivial, trivial⟩
  · obtain ⟨hpne, hpw⟩ := wfWord_elim p.data (by simpa [wfOptStr] using hpr)
    have hmem : ∀ c ∈ priPart (some p), c = ' ' ∨ c = '(' ∨ c = ')' ∨ isWordChar c = true := by
      intro c hc
      simp only [priPart, List.mem_cons, List.mem_append, List.mem_singleton] at hc
      rcases hc with rfl | rfl | hc | rfl | h0
      · exact Or.inl rfl
      · exact Or.inr (Or.inl rfl)
      · exact Or.inr (Or.inr (Or.inr (hpw c hc)))
      · exact Or.inr (Or.inr (Or.inl rfl))
      · cases h0
    refine ⟨?_, ?_, ?_, ?_⟩
    · apply fails_of_none_heads
      intro p2 c s2 hc
      apply projRun_none_of_head
      rcases hmem c hc with rfl | rfl | rfl | hw
      · decide
      · decide
      · decide
      · exact (isWordChar_props c hw).2.2.1
    · apply fails_of_none_heads
      intro p2 c s2 hc
      apply ctxRun_none_of_head
      rcases hmem c hc with rfl | rfl | rfl | hw
      · decide
      · decide
      · decide
      · exact (isWordChar_props c hw).2.2.2.1
    · show Fails tagM prev (' ' :: '(' :: (p.data ++ [')'])) b
      refine ⟨tagRun_none_of_head _ _ (by decide), ?_⟩
      refine ⟨tagRun_none_of_head _ _ (by decide), ?_⟩
      have h2 : Fails tagM (lastOr (some '(') p.data) [')'] b :=
        fails_of_none_heads tagM [')'] _ b
          (fun p2 c s2 hc => by
            simp only [List.mem_singleton] at hc
            subst hc
            exact tagRun_none_of_head _ _ (by decide))
      exact Fails_concat tagM p.data (some '(') [')'] b
        (fails_tag_block p.data (')' :: b)
          (fun c hc => Or.inl (hpw c hc))
          (fun c hc => by
            injection hc with h4
            subst h4
            exact ⟨by decide, by decide⟩)
          (some '(')) h2
    · show Fails dateM prev (' ' :: '(' :: (p.data ++ [')'])) b
      refine ⟨dateRun_none_of_head _ _ _ (by decide), ?_⟩
      refine ⟨dateRun_none_of_head _ _ _ (by decide), ?_⟩
      have h2 : Fails dateM (lastOr (some '(') p.data) [')'] b :=
        fails_of_none_heads dateM [')'] _ b
          (fun p2 c s2 hc => by
            simp only [List.mem_singleton] at hc
            subst hc
            exact dateRun_none_of_head _ _ _ (by decide))
      exact Fails_concat dateM p.data (some '(') [')'] b
        (fails_date_block p.data (')' :: b)
          (fun c hc => Or.inl (hpw c hc))
          (fun c hc => by
            injection hc with h4
            subst h4
            exact ⟨by decide, by decide⟩)
          (some '(')) h2

/-- The last element of a list is an element. -/
theorem mem_of_getLast_eq (l : List Char) (c : Char) (h : l.getLast? = some c) :
    c ∈ l := by
  rw [List.getLast?_eq_head?_reverse] at h
  have hm : c ∈ l.reverse := by
    rcases hl : l.reverse with - | ⟨x, r⟩
    · rw [hl] at h
      cases h
    · rw [hl] at h
      injection h with h2
      subst h2
      exact List.mem_cons_self ..
  exact List.mem_reverse.mp hm

/-- After a match whose characters avoid `:`, the lookbehind stays clean. -/
theorem prevOk_getLast (t : List Char) (h : ∀ c ∈ t, c ≠ ':') : PrevOk t.getLast? :=
  fun c he => h c (mem_of_getLast_eq t c he)

/-- After skipping a chunk whose characters avoid `:`, the lookbehind stays
clean. -/
theorem prevOk_lastOr (part : List Char) (hpart : ∀ c ∈ part, c ≠ ':') :
    ∀ prev, PrevOk prev → PrevOk (lastOr prev part) := by
  induction part with
  | nil => intro prev h; exact h
  | cons c part ih =>
    intro prev h
    exact ih (fun x hx => hpart x (List.mem_cons_of_mem _ hx)) (some c)
      (fun c2 he => by
        injection he with h2
        subst h2
        exact hpart c (List.mem_cons_self ..))

/-- Where `dropWhile` stops in a chunk with a failing continuation head. -/
theorem dropWhile_head_cases (p : Char → Bool) (a b : List Char)
    (hb : ∀ c, b.head? = some c → p c = false) :
    ∀ c2, ((a ++ b).dropWhile p).head? = some c2 →
      (c2 ∈ a ∧ p c2 = false) ∨ b.head? = some c2 := by
  induction a with
  | nil =>
    intro c2 h2
    right
    rcases hbv : b with - | ⟨c0, b2⟩
    · rw [hbv] at h2
      cases h2
    · have h0 := hb c0 (by rw [hbv]; rfl)
      rw [hbv, List.nil_append, List.dropWhile_cons, h0] at h2
      simpa using h2
  | cons c1 a ih =>
    intro c2 h2
    rcases hp1 : p c1 with - | -
    · rw [List.cons_append, List.dropWhile_cons, hp1] at h2
      simp only [Bool.false_eq_true, if_false, List.head?_cons, Option.some.injEq] at h2
      subst h2
      exact Or.inl ⟨List.mem_cons_self .., hp1⟩
    · rw [List.cons_append, List.dropWhile_cons, hp1] at h2
      simp only [if_true] at h2
      rcases ih c2 h2 with ⟨hmem, hfalse⟩ | hbh
      · exact Or.inl ⟨List.mem_cons_of_mem _ hmem, hfalse⟩
      · exact Or.inr hbh

/-- The tag matcher fails everywhere in a colon-free chunk with a spaced
continuation. -/
theorem fails_tag_no_colon (a b : List Char) (ha : ∀ c ∈ a, c ≠ ':')
    (hb : ∀ c, b.head? = some c → isWordChar c = false ∧ c ≠ ':') :
    ∀ prev, Fails tagM prev a b := by
  induction a with
  | nil => intro prev; trivial
  | cons c a ih =>
    intro prev
    refine ⟨?_, ih (fun x hx => ha x (List.mem_cons_of_mem _ hx)) (some c)⟩
    show tagRun (c :: (a ++ b)) = none
    rcases hdw : (c :: (a ++ b)).dropWhile isWordChar with - | ⟨c2, r2⟩
    · simp only [tagRun, hdw]
      split
      · rfl
      · rfl
    · have hc2 : (c2 ∈ c :: a ∧ isWordChar c2 = false) ∨ b.head? = some c2 := by
        have := dropWhile_head_cases isWordChar (c :: a) b
          (fun x hx => (hb x hx).1) c2
        rw [List.cons_append] at this
        exact this (by rw [hdw]; rfl)
      have hne : ¬ c2 = ':' := by
        rcases hc2 with ⟨hmem, -⟩ | hbh
        · exact ha c2 hmem
        · exact (hb c2 hbh).2
      simp only [tagRun, hdw]
      split
      · rfl
      · simp [hne]

/-- No date shape starts inside a dash-free chunk with a non-digit, non-dash
continuation head. -/
theorem dateShapeAt_false_no_dash (a b : List Char) (ha : a ≠ [])
    (had : ∀ c ∈ a, c ≠ '-')
    (hb : ∀ c, b.head? = some c → isDigitChar c = false ∧ c ≠ '-') :
    dateShapeAt (a ++ b) = false := by
  by_cases h5 : 5 ≤ a.length
  · have h4 : 4 < a.length := by omega
    have hget : (a ++ b)[4]? = some a[4] := by
      rw [List.getElem?_append_left h4]
      exact List.getElem?_eq_getElem h4
    apply dateShapeAt_false_of_char _ 4 (Or.inl rfl)
    simp [charAt, hget, had a[4] (List.getElem_mem h4)]
  · have hlen1 : 1 ≤ a.length := List.length_pos.mpr ha
    rcases hbv : b with - | ⟨c0, b2⟩
    · apply dateShapeAt_false_of_char _ 4 (Or.inl rfl)
      have hnone : a[4]? = none := List.getElem?_eq_none (by omega)
      simp [charAt, hbv, hnone]
    · obtain ⟨hd0, hm0⟩ := hb c0 (by rw [hbv]; rfl)
      subst hbv
      have hidx : (a ++ c0 :: b2)[a.length]? = some c0 := by
        rw [List.getElem?_append_right (le_refl _)]
        simp
      have h14 : a.length = 1 ∨ a.length = 2 ∨ a.length = 3 ∨ a.length = 4 := by omega
      rcases h14 with h1 | h1 | h1 | h1
      · apply dateShapeAt_false_of_digit _ 1 (by tauto)
        rw [h1] at hidx
        simp [isDigitAt, hidx, hd0]
      · apply dateShapeAt_false_of_digit _ 2 (by tauto)
        rw [h1] at hidx
        simp [isDigitAt, hidx, hd0]
      · apply dateShapeAt_false_of_digit _ 3 (by tauto)
        rw [h1] at hidx
        simp [isDigitAt, hidx, hd0]
      · apply dateShapeAt_false_of_char _ 4 (Or.inl rfl)
        rw [h1] at hidx
        simp [charAt, hidx, hm0]

/-- The bare-date matcher fails everywhere in a dash-free chunk with a
non-digit, non-dash continuation head. -/
theorem fails_date_no_dash (a b : List Char) (had : ∀ c ∈ a, c ≠ '-')
    (hb : ∀ c, b.head? = some c → isDigitChar c = false ∧ c ≠ '-') :
    ∀ prev, Fails dateM prev a b := by
  induction a with
  | nil => intro prev; trivial
  | cons c a ih =>
    intro prev
    refine ⟨?_, ih (fun x hx => had x (List.mem_cons_of_mem _ hx)) (some c)⟩
    show dateRun prev (c :: (a ++ b)) = none
    unfold dateRun
    by_cases hp : prev = some ':'
    · simp [hp]
    · have hfalse : dateShapeAt ((c :: a) ++ b) = false :=
        dateShapeAt_false_no_dash (c :: a) b (by simp) had hb
      rw [List.cons_append] at hfalse
      simp [hp, hfalse]

/-- Character-class facts about digits. -/
theorem isDigitChar_props (c : Char) (h : isDigitChar c = true) :
    isWordChar c = true ∧ c ≠ '+' ∧ c ≠ '@' ∧ c ≠ '(' ∧ c ≠ ':' ∧ c ≠ '-' ∧ c ≠ ' ' := by
  have hw : isWordChar c = true := by
    simp only [isDigitChar] at h
    simp [isWordChar, Char.isAlphanum, h]
  refine ⟨hw, ?_, ?_, ?_, ?_, ?_, ?_⟩ <;>
    (intro he; subst he; exact absurd h (by decide))

/-- When the five alternatives all fail on a chunk, the title-removal matcher
fails on it. -/
theorem fails_title_of_components (a : List Char) :
    ∀ (prev : Option Char) (b : List Char),
      Fails projM prev a b → Fails ctxM prev a b → Fails priM prev a b →
      Fails tagM prev a b → Fails dateM prev a b → Fails titleM prev a b := by
  induction a with
  | nil => intro prev b _ _ _ _ _; trivial
  | cons c a ih =>
    intro prev b h1 h2 h3 h4 h5
    refine ⟨?_, ih (some c) b h1.2 h2.2 h3.2 h4.2 h5.2⟩
    have e1 : projRun (c :: (a ++ b)) = none := h1.1
    have e2 : ctxRun (c :: (a ++ b)) = none := h2.1
    have e3 : priRun (c :: (a ++ b)) = none := h3.1
    have e4 : tagRun (c :: (a ++ b)) = none := h4.1
    have e5 : dateRun prev (c :: (a ++ b)) = none := h5.1
    show titleRun prev (c :: (a ++ b)) = none
    simp [titleRun, e1, e2, e3, e4, e5]

/-- A nonempty list has a last element. -/
theorem getLast_some_of_ne_nil (l : List Char) (h : l ≠ []) :
    ∃ c, l.getLast? = some c := by
  rw [List.getLast?_eq_head?_reverse]
  rcases hl : l.reverse with - | ⟨c, r⟩
  · exact absurd (by simpa using congrArg List.reverse hl) h
  · exact ⟨c, rfl⟩

/-- Elimination for canonical titles. -/
theorem wfTitle_elim (l : List Char) (h : wfTitle l = true) :
    l ≠ [] ∧ (∀ c ∈ l, c.isAlpha = true ∨ c = ' ') ∧
      (∀ c, l.head? = some c → c.isAlpha = true ∧ isSpaceChar c = false) ∧
      (∀ c, l.getLast? = some c → c.isAlpha = true ∧ isSpaceChar c = false) := by
  simp only [wfTitle, Bool.and_eq_true, List.all_eq_true] at h
  obtain ⟨⟨⟨h1, h2⟩, h3⟩, h4⟩ := h
  have hmem : ∀ c ∈ l, c.isAlpha = true ∨ c = ' ' := by
    intro c hc
    have := h2 c hc
    simpa using this
  have hne : l ≠ [] := by
    intro he
    rw [he] at h1
    simp at h1
  refine ⟨hne, hmem, ?_, ?_⟩
  · intro c hc
    rw [hc] at h3
    simp only [Bool.not_eq_true'] at h3
    have hcm : c ∈ l := by
      rcases l with - | ⟨c0, r⟩
      · cases hc
      · injection hc with h5
        subst h5
        exact List.mem_cons_self ..
    have hns : ¬ c = ' ' := by simpa using h3
    rcases hmem c hcm with ha | ha
    · exact ⟨ha, (isAlpha_props c ha).2.1⟩
    · exact absurd ha hns
  · intro c hc
    rw [hc] at h4
    simp only [Bool.not_eq_true'] at h4
    have hcm : c ∈ l := mem_of_getLast_eq l c hc
    have hns : ¬ c = ' ' := by simpa using h4
    rcases hmem c hcm with ha | ha
    · exact ⟨ha, (isAlpha_props c ha).2.1⟩
    · exact absurd ha hns

/-- Elimination for canonical tag maps. -/
theorem wfTags_elim (l : List (String × String)) (h : wfTags l = true) :
    (∀ kv ∈ l, wfWord kv.1.data = true ∧ wfWord kv.2.data = true) ∧
      (l.map Prod.fst).Nodup := by
  simp only [wfTags, Bool.and_eq_true, List.all_eq_true, decide_eq_true_eq] at h
  refine ⟨fun kv hkv => ?_, h.2⟩
  have := h.1 kv hkv
  simpa [wfTag] using this

/-- Characters of a rendered date token. -/
theorem dateChars_mem (d : Date) : ∀ c ∈ dateChars d,
    c = '-' ∨ (isDigitChar c = true ∧ isWordChar c = true ∧ isSpaceChar c = false ∧
      c ≠ '+' ∧ c ≠ '@' ∧ c ≠ '(' ∧ c ≠ ':' ∧ c ≠ ' ') := by
  intro c hc
  have hl : dateChars d =
      [digitChar (d.year / 1000 % 10), digitChar (d.year / 100 % 10),
        digitChar (d.year / 10 % 10), digitChar (d.year % 10), '-',
        digitChar (d.month / 10 % 10), digitChar (d.month % 10), '-',
        digitChar (d.day / 10 % 10), digitChar (d.day % 10)] := by
    simp [dateChars, digit4, digit2]
  rw [hl] at hc
  simp only [List.mem_cons, List.not_mem_nil, or_false] at hc
  rcases hc with rfl | rfl | rfl | rfl | rfl | rfl | rfl | rfl | rfl | rfl <;>
    first
      | exact Or.inl rfl
      | (obtain ⟨p1, p2, p3, -, -, p6, p7, p8, p9, p10⟩ := digitChar_props _
         exact Or.inr ⟨p1, p2, p3, p6, p7, p8, p9, p10⟩)

/-- Characters of a rendered ` (P)` fragment. -/
theorem priPart_mem (pr : Option String) (h : wfOptStr wfWord pr = true) :
    ∀ c ∈ priPart pr, c = ' ' ∨ c = '(' ∨ c = ')' ∨ isWordChar c = true := by
  rcases pr with - | p
  · intro c hc
    cases hc
  · obtain ⟨-, hw⟩ := wfWord_elim p.data (by simpa [wfOptStr] using h)
    intro c hc
    simp only [priPart, List.mem_cons, List.mem_append, List.mem_singleton,
      List.not_mem_nil, or_false] at hc
    rcases hc with rfl | rfl | hc | rfl
    · exact Or.inl rfl
    · exact Or.inr (Or.inl rfl)
    · exact Or.inr (Or.inr (Or.inr (hw c hc)))
    · exact Or.inr (Or.inr (Or.inl rfl))

/-- Characters of a rendered date fragment. -/
theorem datePart_mem (d : Option Date) : ∀ c ∈ datePart d,
    c = ' ' ∨ c = '-' ∨ (isDigitChar c = true ∧ isWordChar c = true ∧
      isSpaceChar c = false ∧ c ≠ '+' ∧ c ≠ '@' ∧ c ≠ '(' ∧ c ≠ ':' ∧ c ≠ ' ') := by
  rcases d with - | d
  · intro c hc
    cases hc
  · intro c hc
    simp only [datePart, List.mem_cons] at hc
    rcases hc with rfl | hc
    · exact Or.inl rfl
    · exact Or.inr (dateChars_mem d c hc)

/-- Characters of a rendered ` +project` fragment. -/
theorem projPart_mem (pj : Option String) (h : wfOptStr wfWord pj = true) :
    ∀ c ∈ projPart pj, c = ' ' ∨ c = '+' ∨ isWordChar c = true := by
  rcases pj with - | p
  · intro c hc
    cases hc
  · obtain ⟨-, hw⟩ := wfWord_elim p.data (by simpa [wfOptStr] using h)
    intro c hc
    simp only [projPart, List.mem_cons] at hc
    rcases hc with rfl | rfl | hc
    · exact Or.inl rfl
    · exact Or.inr (Or.inl rfl)
    · exact Or.inr (Or.inr (hw c hc))

/-- Characters of a rendered ` @context` fragment. -/
theorem ctxPart_mem (cx : Option String) (h : wfOptStr wfWord cx = true) :
    ∀ c ∈ ctxPart cx, c = ' ' ∨ c = '@' ∨ isWordChar c = true := by
  rcases cx with - | p
  · intro c hc
    cases hc
  · obtain ⟨-, hw⟩ := wfWord_elim p.data (by simpa [wfOptStr] using h)
    intro c hc
    simp only [ctxPart, List.mem_cons] at hc
    rcases hc with rfl | rfl | hc
    · exact Or.inl rfl
    · exact Or.inr (Or.inl rfl)
    · exact Or.inr (Or.inr (hw c hc))

/-- Characters of the rendered tag fragments. -/
theorem tagsPart_mem (ot : List (String × String))
    (h : ∀ kv ∈ ot, wfWord kv.1.data = true ∧ wfWord kv.2.data = true) :
    ∀ c ∈ tagsPart ot, c = ' ' ∨ c = ':' ∨ isWordChar c = true := by
  intro c hc
  simp only [tagsPart, List.mem_flatten, List.mem_map] at hc
  obtain ⟨x, ⟨kv, hkv, rfl⟩, hcx⟩ := hc
  obtain ⟨hk, hv⟩ := h kv hkv
  obtain ⟨-, hkw⟩ := wfWord_elim kv.1.data hk
  obtain ⟨-, hvw⟩ := wfWord_elim kv.2.data hv
  simp only [List.mem_cons, List.mem_append] at hcx
  rcases hcx with rfl | hcx | rfl | hcx
  · exact Or.inl rfl
  · exact Or.inr (Or.inr (hkw c hcx))
  · exact Or.inr (Or.inl rfl)
  · exact Or.inr (Or.inr (hvw c hcx))

/-- Characters of the rendered title chunk (with its leading space). -/
theorem titleChunk_mem (ti : List Char) (h : wfTitle ti = true) :
    ∀ c ∈ ' ' :: ti, c = ' ' ∨ c.isAlpha = true := by
  obtain ⟨-, hmem, -, -⟩ := wfTitle_elim ti h
  intro c hc
  simp only [List.mem_cons] at hc
  rcases hc with rfl | hc
  · exact Or.inl rfl
  · exact (hmem c hc).symm

/-- The project matcher fails on a plus-free chunk. -/
theorem fails_no_plus (a : List Char) (ha : ∀ c ∈ a, c ≠ '+') (prev : Option Char)
    (b : List Char) : Fails projM prev a b :=
  fails_of_none_heads projM a prev b
    (fun _ c s2 hc => projRun_none_of_head c s2 (ha c hc))

/-- The context matcher fails on an at-free chunk. -/
theorem fails_no_at (a : List Char) (ha : ∀ c ∈ a, c ≠ '@') (prev : Option Char)
    (b : List Char) : Fails ctxM prev a b :=
  fails_of_none_heads ctxM a prev b
    (fun _ c s2 hc => ctxRun_none_of_head c s2 (ha c hc))

/-- The priority matcher fails on a paren-free chunk. -/
theorem fails_no_paren (a : List Char) (ha : ∀ c ∈ a, c ≠ '(') (prev : Option Char)
    (b : List Char) : Fails priM prev a b :=
  fails_of_none_heads priM a prev b
    (fun _ c s2 hc => priRun_none_of_head c s2 (ha c hc))

/-- Head-based failure of the project matcher. -/
theorem projRun_none_headq (s : List Char) (h : ∀ c, s.head? = some c → c ≠ '+') :
    projRun s = none := by
  rcases s with - | ⟨c, rest⟩
  · rfl
  · exact projRun_none_of_head c rest (h c rfl)

/-- Head-based failure of the context matcher. -/
theorem ctxRun_none_headq (s : List Char) (h : ∀ c, s.head? = some c → c ≠ '@') :
    ctxRun s = none := by
  rcases s with - | ⟨c, rest⟩
  · rfl
  · exact ctxRun_none_of_head c rest (h c rfl)

/-- Head-based failure of the priority matcher. -/
theorem priRun_none_headq (s : List Char) (h : ∀ c, s.head? = some c → c ≠ '(') :
    priRun s = none := by
  rcases s with - | ⟨c, rest⟩
  · rfl
  · exact priRun_none_of_head c rest (h c rfl)

/-- The head of a rendered date token is its first year digit. -/
theorem dateChars_headq (d : Date) :
    (dateChars d).head? = some (digitChar (d.year / 1000 % 10)) := by
  simp [dateChars, digit4]

/-- A rendered date token followed by anything still heads with a digit. -/
theorem dateChars_append_headq (d : Date) (b : List Char) :
    (dateChars d ++ b).head? = some (digitChar (d.year / 1000 % 10)) := by
  rw [List.head?_append, dateChars_headq]
  rfl

/-- The tag matcher fails at a rendered date token: the leading digit run is
ended by the first dash, not a colon. -/
theorem tagRun_none_dateChars (d : Date) (b : List Char) :
    tagRun (dateChars d ++ b) = none := by
  have hstep : dateChars d ++ b =
      digit4 d.year ++ '-' :: (digit2 d.month ++ '-' :: digit2 d.day ++ b) := by
    simp [dateChars]
  rw [hstep]
  obtain ⟨h1, h2⟩ := takeWhile_block isWordChar (digit4 d.year)
    ('-' :: (digit2 d.month ++ '-' :: digit2 d.day ++ b))
    (fun c hc => by
      simp only [digit4, List.mem_cons, List.not_mem_nil, or_false] at hc
      rcases hc with rfl | rfl | rfl | rfl <;> exact (digitChar_props _).2.1)
    (fun c hc => by
      injection hc with h3
      subst h3
      decide)
  simp only [tagRun, h1, h2]
  simp [digit4]

/-- The title-removal matcher at a rendered ` (P)` token fires with the
priority alternative. -/
theorem titleRun_at_pri (prev : Option Char) (p b : List Char) (hp : p ≠ [])
    (hw : ∀ x ∈ p, isWordChar x = true) :
    titleRun prev ('(' :: (p ++ ')' :: b)) = some ('(' :: p ++ [')'], b) := by
  simp [titleRun, projRun_none_of_head '(' _ (by decide),
    ctxRun_none_of_head '(' _ (by decide), priRun_match p b hp hw]

/-- The title-removal matcher at a rendered date token fires with the
bare-date alternative. -/
theorem titleRun_at_date (prev : Option Char) (hprev : PrevOk prev) (d : Date)
    (b : List Char) : titleRun prev (dateChars d ++ b) = some (dateChars d, b) := by
  have hhead : ∀ c, (dateChars d ++ b).head? = some c →
      c ≠ '+' ∧ c ≠ '@' ∧ c ≠ '(' := by
    intro c hc
    rw [dateChars_append_headq] at hc
    injection hc with h2
    subst h2
    exact ⟨(digitChar_props _).2.2.2.2.2.1, (digitChar_props _).2.2.2.2.2.2.1,
      (digitChar_props _).2.2.2.2.2.2.2.1⟩
  simp [titleRun, projRun_none_headq _ (fun c hc => (hhead c hc).1),
    ctxRun_none_headq _ (fun c hc => (hhead c hc).2.1),
    priRun_none_headq _ (fun c hc => (hhead c hc).2.2),
    tagRun_none_dateChars d b, dateRun_match prev hprev d b]

/-- The title-removal matcher at a rendered ` +project` token fires with the
project alternative. -/
theorem titleRun_at_proj (prev : Option Char) (p b : List Char) (hp : p ≠ [])
    (hw : ∀ x ∈ p, isWordChar x = true)
    (hb : ∀ c, b.head? = some c → isWordChar c = false) :
    titleRun prev ('+' :: (p ++ b)) = some ('+' :: p, b) := by
  simp [titleRun, projRun_match p b hp hw hb]

/-- The title-removal matcher at a rendered ` @context` token fires with the
context alternative. -/
theorem titleRun_at_ctx (prev : Option Char) (p b : List Char) (hp : p ≠ [])
    (hw : ∀ x ∈ p, isWordChar x = true)
    (hb : ∀ c, b.head? = some c → isWordChar c = false) :
    titleRun prev ('@' :: (p ++ b)) = some ('@' :: p, b) := by
  simp [titleRun, projRun_none_of_head '@' _ (by decide),
    ctxRun_match p b hp hw hb]

/-- The title-removal matcher at a rendered tag token fires with the tag
alternative. -/
theorem titleRun_at_tag (prev : Option Char) (k v b : List Char) (hk : k ≠ [])
    (hv : v ≠ []) (hwk : ∀ x ∈ k, isWordChar x = true)
    (hwv : ∀ x ∈ v, isWordChar x = true)
    (hb : ∀ c, b.head? = some c → c = ' ') :
    titleRun prev (k ++ ':' :: (v ++ b)) = some (k ++ ':' :: v, b) := by
  rcases k with - | ⟨c0, k2⟩
  · exact absurd rfl hk
  · have hc0 := hwk c0 (List.mem_cons_self ..)
    obtain ⟨-, -, hn1, hn2, hn3, -, -, -, -⟩ := isWordChar_props c0 hc0
    have ht := tagRun_match (c0 :: k2) v b hk hv hwk hwv hb
    rw [List.cons_append] at ht ⊢
    simp [titleRun, projRun_none_of_head c0 _ hn1, ctxRun_none_of_head c0 _ hn2,
      priRun_none_of_head c0 _ hn3, ht]

/-- Unfolding the rendered tag fragments one pair at a time. -/
theorem tagsPart_cons (kv : String × String) (ot : List (String × String)) :
    tagsPart (kv :: ot) =
      (' ' :: (kv.1.data ++ ':' :: kv.2.data)) ++ tagsPart ot := by
  simp [tagsPart]

/-- The rendered tag fragments begin with a space (when nonempty). -/
theorem tagsPart_head (ot : List (String × String)) :
    ∀ c, (tagsPart ot).head? = some c → c = ' ' := by
  rcases ot with - | ⟨kv, rest⟩
  · intro c hc
    cases hc
  · intro c hc
    rw [tagsPart_cons, List.cons_append, List.head?_cons] at hc
    injection hc with h2
    exact h2.symm

/-- A rendered ` (P)` fragment begins with a space. -/
theorem priPart_head (pr : Option String) :
    ∀ c, (priPart pr).head? = some c → c = ' ' := by
  rcases pr with - | p <;> intro c hc
  · cases hc
  · injection hc with h2
    exact h2.symm

/-- A rendered date fragment begins with a space. -/
theorem datePart_head (d : Option Date) :
    ∀ c, (datePart d).head? = some c → c = ' ' := by
  rcases d with - | d <;> intro c hc
  · cases hc
  · injection hc with h2
    exact h2.symm

/-- A rendered ` +project` fragment begins with a space. -/
theorem projPart_head (pj : Option String) :
    ∀ c, (projPart pj).head? = some c → c = ' ' := by
  rcases pj with - | p <;> intro c hc
  · cases hc
  · injection hc with h2
    exact h2.symm

/-- A rendered ` @context` fragment begins with a space. -/
theorem ctxPart_head (cx : Option String) :
    ∀ c, (ctxPart cx).head? = some c → c = ' ' := by
  rcases cx with - | p <;> intro c hc
  · cases hc
  · injection hc with h2
    exact h2.symm

/-- A concatenation of space-headed fragments is space-headed. -/
theorem head_space_append (x y : List Char)
    (hx : ∀ c, x.head? = some c → c = ' ') (hy : ∀ c, y.head? = some c → c = ' ') :
    ∀ c, (x ++ y).head? = some c → c = ' ' := by
  intro c hc
  rw [List.head?_append] at hc
  rcases hh : x.head? with - | c2
  · rw [hh] at hc
    exact hy c hc
  · rw [hh] at hc
    injection hc with h2
    subst h2
    exact hx c2 hh

/-- `find_iter` of the tag pattern over the rendered tag fragments returns
exactly the rendered `k:v` tokens, in order. -/
theorem findAll_tags (ot : List (String × String))
    (h : ∀ kv ∈ ot, wfWord kv.1.data = true ∧ wfWord kv.2.data = true) :
    ∀ prev, findAll tagM prev (tagsPart ot) =
      ot.map (fun kv => kv.1.data ++ ':' :: kv.2.data) := by
  induction ot with
  | nil => intro prev; rfl
  | cons kv ot ih =>
    intro prev
    obtain ⟨hk, hv⟩ := h kv (List.mem_cons_self ..)
    obtain ⟨hkne, hkw⟩ := wfWord_elim _ hk
    obtain ⟨hvne, hvw⟩ := wfWord_elim _ hv
    rw [tagsPart_cons, List.cons_append,
      findAll_cons_none tagM prev ' ' _ (tagRun_none_of_head ' ' _ (by decide))]
    have hm : tagM (some ' ') ((kv.1.data ++ ':' :: kv.2.data) ++ tagsPart ot) =
        some (kv.1.data ++ ':' :: kv.2.data, tagsPart ot) := by
      have hassoc : (kv.1.data ++ ':' :: kv.2.data) ++ tagsPart ot =
          kv.1.data ++ ':' :: (kv.2.data ++ tagsPart ot) := by
        simp
      rw [hassoc]
      exact tagRun_match kv.1.data kv.2.data (tagsPart ot) hkne hvne hkw hvw
        (tagsPart_head ot)
    rw [findAll_cons_some tagM consumes_tagM (some ' ') _ _ _ hm, List.map_cons]
    congr 1
    exact ih (fun kv2 h2 => h kv2 (List.mem_cons_of_mem _ h2)) _

/-- `split_once(':')` on a rendered tag token recovers its key and value. -/
theorem splitOnceColon_token (k v : List Char) (hk : ∀ c ∈ k, c ≠ ':') :
    splitOnceColon (k ++ ':' :: v) = some (k, v) := by
  induction k with
  | nil => simp [splitOnceColon]
  | cons c k2 ih =>
    have hc := hk c (List.mem_cons_self ..)
    rw [List.cons_append]
    simp only [splitOnceColon, hc, if_false,
      ih (fun x hx => hk x (List.mem_cons_of_mem _ hx))]
    rfl

/-- Folding the rendered tag tokens through the map-building step rebuilds the
original pair list on top of any accumulator with disjoint keys. -/
theorem foldl_tags_rebuild (ot : List (String × String))
    (h : ∀ kv ∈ ot, wfWord kv.1.data = true ∧ wfWord kv.2.data = true)
    (hnd : (ot.map Prod.fst).Nodup) :
    ∀ acc : List (String × String),
      (∀ kv ∈ ot, acc.any (fun p => p.1 = kv.1) = false) →
      (ot.map (fun kv => kv.1.data ++ ':' :: kv.2.data)).foldl
        (fun map e =>
          match splitOnceColon e with
          | some (kk, vv) => mapInsert map (String.mk kk) (String.mk vv)
          | none => map) acc = acc ++ ot := by
  induction ot with
  | nil =>
    intro acc _
    simp
  | cons kv ot ih =>
    intro acc hacc
    obtain ⟨hk, -⟩ := h kv (List.mem_cons_self ..)
    obtain ⟨-, hkw⟩ := wfWord_elim _ hk
    have hsplit : splitOnceColon (kv.1.data ++ ':' :: kv.2.data) =
        some (kv.1.data, kv.2.data) :=
      splitOnceColon_token _ _ (fun c hc => (isWordChar_props c (hkw c hc)).2.2.2.2.2.2.1)
    have hins : mapInsert acc kv.1 kv.2 = acc ++ [kv] := by
      have hany := hacc kv (List.mem_cons_self ..)
      simp [mapInsert, hany]
    rw [List.map_cons, List.foldl_cons, hsplit]
    have hstep :
        (match some (kv.1.data, kv.2.data) with
          | some (kk, vv) => mapInsert acc (String.mk kk) (String.mk vv)
          | none => acc) = acc ++ [kv] := hins
    rw [hstep]
    rw [List.map_cons, List.nodup_cons] at hnd
    have hrec := ih (fun kv2 h2 => h kv2 (List.mem_cons_of_mem _ h2)) hnd.2 (acc ++ [kv])
      (fun kv2 h2 => by
        have h3 := hacc kv2 (List.mem_cons_of_mem _ h2)
        have hne : kv.1 ≠ kv2.1 := by
          intro he
          exact hnd.1 (he ▸ List.mem_map_of_mem Prod.fst h2)
        simp [List.any_append, h3, hne])
    rw [hrec, List.append_assoc, List.singleton_append]

/-- Trigger characters absent from a rendered ` (P)` fragment. -/
theorem priPart_no_trig (pr : Option String) (h : wfOptStr wfWord pr = true) :
    ∀ c ∈ priPart pr, c ≠ '+' ∧ c ≠ '@' ∧ c ≠ ':' ∧ c ≠ '-' := by
  intro c hc
  rcases priPart_mem pr h c hc with rfl | rfl | rfl | hw
  · exact ⟨by decide, by decide, by decide, by decide⟩
  · exact ⟨by decide, by decide, by decide, by decide⟩
  · exact ⟨by decide, by decide, by decide, by decide⟩
  · obtain ⟨-, -, p3, p4, -, -, p7, p8, -⟩ := isWordChar_props c hw
    exact ⟨p3, p4, p7, p8⟩

/-- Trigger characters absent from a rendered date fragment. -/
theorem datePart_no_trig (d : Option Date) :
    ∀ c ∈ datePart d, c ≠ '+' ∧ c ≠ '@' ∧ c ≠ '(' ∧ c ≠ ':' := by
  intro c hc
  rcases datePart_mem d c hc with rfl | rfl | ⟨-, -, -, p4, p5, p6, p7, -⟩
  · exact ⟨by decide, by decide, by decide, by decide⟩
  · exact ⟨by decide, by decide, by decide, by decide⟩
  · exact ⟨p4, p5, p6, p7⟩

/-- Trigger characters absent from the rendered title chunk. -/
theorem titleChunk_no_trig (ti : List Char) (h : wfTitle ti = true) :
    ∀ c ∈ ' ' :: ti, c ≠ '+' ∧ c ≠ '@' ∧ c ≠ '(' ∧ c ≠ ':' ∧ c ≠ '-' := by
  intro c hc
  rcases titleChunk_mem ti h c hc with rfl | ha
  · exact ⟨by decide, by decide, by decide, by decide, by decide⟩
  · obtain ⟨-, -, -, p4, p5, p6, p7, p8⟩ := isAlpha_props c ha
    exact ⟨p4, p5, p6, p7, p8⟩

/-- Trigger characters absent from a rendered ` +project` fragment. -/
theorem projPart_no_trig (pj : Option String) (h : wfOptStr wfWord pj = true) :
    ∀ c ∈ projPart pj, c ≠ '@' ∧ c ≠ '(' ∧ c ≠ ':' ∧ c ≠ '-' := by
  intro c hc
  rcases projPart_mem pj h c hc with rfl | rfl | hw
  · exact ⟨by decide, by decide, by decide, by decide⟩
  · exact ⟨by decide, by decide, by decide, by decide⟩
  · obtain ⟨-, -, -, p4, p5, -, p7, p8, -⟩ := isWordChar_props c hw
    exact ⟨p4, p5, p7, p8⟩

/-- Trigger characters absent from a rendered ` @context` fragment. -/
theorem ctxPart_no_trig (cx : Option String) (h : wfOptStr wfWord cx = true) :
    ∀ c ∈ ctxPart cx, c ≠ '+' ∧ c ≠ '(' ∧ c ≠ ':' ∧ c ≠ '-' := by
  intro c hc
  rcases ctxPart_mem cx h c hc with rfl | rfl | hw
  · exact ⟨by decide, by decide, by decide, by decide⟩
  · exact ⟨by decide, by decide, by decide, by decide⟩
  · obtain ⟨-, -, p3, -, p5, -, p7, p8, -⟩ := isWordChar_props c hw
    exact ⟨p3, p5, p7, p8⟩

/-- Trigger characters absent from the rendered tag fragments. -/
theorem tagsPart_no_trig (ot : List (String × String))
    (h : ∀ kv ∈ ot, wfWord kv.1.data = true ∧ wfWord kv.2.data = true) :
    ∀ c ∈ tagsPart ot, c ≠ '+' ∧ c ≠ '@' ∧ c ≠ '(' ∧ c ≠ '-' := by
  intro c hc
  rcases tagsPart_mem ot h c hc with rfl | rfl | hw
  · exact ⟨by decide, by decide, by decide, by decide⟩
  · exact ⟨by decide, by decide, by decide, by decide⟩
  · obtain ⟨-, -, p3, p4, p5, -, -, p8, -⟩ := isWordChar_props c hw
    exact ⟨p3, p4, p5, p8⟩

/-- The lookbehind stays clean after a token consisting of a leading
character (not `:`) and word characters. -/
theorem prevOk_cons_word (c0 : Char) (w : List Char) (h0 : c0 ≠ ':')
    (hw : ∀ x ∈ w, isWordChar x = true) : PrevOk ((c0 :: w).getLast?) := by
  apply prevOk_getLast
  intro c hc
  simp only [List.mem_cons] at hc
  rcases hc with rfl | hc
  · exact h0
  · exact (isWordChar_props c (hw c hc)).2.2.2.2.2.2.1

/-- The last character of a rendered tag token is the last of its value. -/
theorem tag_token_getLast (k v : List Char) (hv : v ≠ []) :
    (k ++ ':' :: v).getLast? = v.getLast? := by
  obtain ⟨c, hc⟩ := getLast_some_of_ne_nil v hv
  rw [show k ++ ':' :: v = (k ++ [':']) ++ v by simp, List.getLast?_append, hc]
  rfl

/-- One `find` step when the matcher fails: move right. -/
theorem findFirst_cons_none (m : MatchFn) (prev : Option Char) (c : Char)
    (rest : List Char) (hm : m prev (c :: rest) = none) :
    findFirst m prev (c :: rest) = findFirst m (some c) rest := by
  simp [findFirst, hm]

/-- One `find` step when the matcher fires: return the match. -/
theorem findFirst_cons_some (m : MatchFn) (prev : Option Char) (c : Char)
    (rest t r : List Char) (hm : m prev (c :: rest) = some (t, r)) :
    findFirst m prev (c :: rest) = some t := by
  simp [findFirst, hm]

/-- The rendered title chunk begins with a space. -/
theorem titleChunk_head (ti : List Char) :
    ∀ c, (' ' :: ti).head? = some c → c = ' ' := by
  intro c hc
  rw [List.head?_cons] at hc
  injection hc with h2
  exact h2.symm


/-- `Regex::find` of the priority pattern over a canonical body returns the
rendered priority token. -/
theorem master_pri (pr : Option String) (co cr : Option Date) (ti : List Char)
    (pj cx : Option String) (ot : List (String × String))
    (hpr : wfOptStr wfWord pr = true) (hti : wfTitle ti = true)
    (hpj : wfOptStr wfWord pj = true) (hcx : wfOptStr wfWord cx = true)
    (hot : ∀ kv ∈ ot, wfWord kv.1.data = true ∧ wfWord kv.2.data = true)
    (prev : Option Char) :
    findFirst priM prev
        (priPart pr ++ (datePart co ++ (datePart cr ++ ((' ' :: ti) ++
          (projPart pj ++ (ctxPart cx ++ tagsPart ot)))))) =
      pr.map (fun p => '(' :: (p.data ++ [')'])) := by
  rcases pr with - | p
  · have hnp : ∀ c ∈ datePart co ++ (datePart cr ++ ((' ' :: ti) ++
        (projPart pj ++ (ctxPart cx ++ tagsPart ot)))), c ≠ '(' := by
      intro c hc
      simp only [List.mem_append] at hc
      rcases hc with h1 | h2 | h3 | h4 | h5 | h6
      · exact (datePart_no_trig co c h1).2.2.1
      · exact (datePart_no_trig cr c h2).2.2.1
      · exact (titleChunk_no_trig ti hti c h3).2.2.1
      · exact (projPart_no_trig pj hpj c h4).2.1
      · exact (ctxPart_no_trig cx hcx c h5).2.1
      · exact (tagsPart_no_trig ot hot c h6).2.2.1
    have hfind := fails_findFirst priM _ prev [] (fails_no_paren _ hnp prev [])
    rw [List.append_nil] at hfind
    simp only [priPart, List.nil_append]
    rw [hfind]
    rfl
  · obtain ⟨hpne, hpw⟩ := wfWord_elim p.data (by simpa [wfOptStr] using hpr)
    have hshape : ∀ R : List Char,
        priPart (some p) ++ R = ' ' :: '(' :: (p.data ++ ')' :: R) := by
      intro R
      simp [priPart]
    rw [hshape, findFirst_cons_none priM prev ' ' _
      (priRun_none_of_head ' ' _ (by decide)),
      findFirst_cons_some priM (some ' ') '(' _ _ _ (priRun_match p.data _ hpne hpw)]
    simp

/-- `Regex::find` of the project pattern over a canonical body returns the
rendered project token. -/
theorem master_proj (pr : Option String) (co cr : Option Date) (ti : List Char)
    (pj cx : Option String) (ot : List (String × String))
    (hpr : wfOptStr wfWord pr = true) (hti : wfTitle ti = true)
    (hpj : wfOptStr wfWord pj = true) (hcx : wfOptStr wfWord cx = true)
    (hot : ∀ kv ∈ ot, wfWord kv.1.data = true ∧ wfWord kv.2.data = true)
    (prev : Option Char) :
    findFirst projM prev
        (priPart pr ++ (datePart co ++ (datePart cr ++ ((' ' :: ti) ++
          (projPart pj ++ (ctxPart cx ++ tagsPart ot)))))) =
      pj.map (fun p => '+' :: p.data) := by
  have hnpA : ∀ c ∈ priPart pr ++ (datePart co ++ (datePart cr ++ (' ' :: ti))),
      c ≠ '+' := by
    intro c hc
    simp only [List.mem_append] at hc
    rcases hc with h1 | h2 | h3 | h4
    · exact (priPart_no_trig pr hpr c h1).1
    · exact (datePart_no_trig co c h2).1
    · exact (datePart_no_trig cr c h3).1
    · exact (titleChunk_no_trig ti hti c h4).1
  rcases pj with - | p
  · have hnp : ∀ c ∈ priPart pr ++ (datePart co ++ (datePart cr ++ ((' ' :: ti) ++
        (projPart (none : Option String) ++ (ctxPart cx ++ tagsPart ot))))),
        c ≠ '+' := by
      intro c hc
      simp only [List.mem_append] at hc
      rcases hc with h1 | h2 | h3 | h4 | h5 | h6 | h7
      · exact (priPart_no_trig pr hpr c h1).1
      · exact (datePart_no_trig co c h2).1
      · exact (datePart_no_trig cr c h3).1
      · exact (titleChunk_no_trig ti hti c h4).1
      · cases h5
      · exact (ctxPart_no_trig cx hcx c h6).1
      · exact (tagsPart_no_trig ot hot c h7).1
    have hfind := fails_findFirst projM _ prev [] (fails_no_plus _ hnp prev [])
    rw [List.append_nil] at hfind
    rw [hfind]
    rfl
  · obtain ⟨hpne, hpw⟩ := wfWord_elim p.data (by simpa [wfOptStr] using hpj)
    have hsplit : priPart pr ++ (datePart co ++ (datePart cr ++ ((' ' :: ti) ++
        (projPart (some p) ++ (ctxPart cx ++ tagsPart ot))))) =
        (priPart pr ++ (datePart co ++ (datePart cr ++ (' ' :: ti)))) ++
          (projPart (some p) ++ (ctxPart cx ++ tagsPart ot)) := by
      simp [List.append_assoc]
    rw [hsplit, fails_findFirst projM _ prev _ (fails_no_plus _ hnpA prev _)]
    have hshape : projPart (some p) ++ (ctxPart cx ++ tagsPart ot) =
        ' ' :: '+' :: (p.data ++ (ctxPart cx ++ tagsPart ot)) := by
      simp [projPart]
    rw [hshape, findFirst_cons_none projM _ ' ' _
      (projRun_none_of_head ' ' _ (by decide)),
      findFirst_cons_some projM (some ' ') '+' _ _ _
        (projRun_match p.data _ hpne hpw
          (fun c hc => by
            rw [head_space_append _ _ (ctxPart_head cx) (tagsPart_head ot) c hc]
            decide))]
    rfl

/-- `Regex::find` of the context pattern over a canonical body returns the
rendered context token. -/
theorem master_ctx (pr : Option String) (co cr : Option Date) (ti : List Char)
    (pj cx : Option String) (ot : List (String × String))
    (hpr : wfOptStr wfWord pr = true) (hti : wfTitle ti = true)
    (hpj : wfOptStr wfWord pj = true) (hcx : wfOptStr wfWord cx = true)
    (hot : ∀ kv ∈ ot, wfWord kv.1.data = true ∧ wfWord kv.2.data = true)
    (prev : Option Char) :
    findFirst ctxM prev
        (priPart pr ++ (datePart co ++ (datePart cr ++ ((' ' :: ti) ++
          (projPart pj ++ (ctxPart cx ++ tagsPart ot)))))) =
      cx.map (fun p => '@' :: p.data) := by
  have hnpA : ∀ c ∈ priPart pr ++ (datePart co ++ (datePart cr ++ ((' ' :: ti) ++
      projPart pj))), c ≠ '@' := by
    intro c hc
    simp only [List.mem_append] at hc
    rcases hc with h1 | h2 | h3 | h4 | h5
    · exact (priPart_no_trig pr hpr c h1).2.1
    · exact (datePart_no_trig co c h2).2.1
    · exact (datePart_no_trig cr c h3).2.1
    · exact (titleChunk_no_trig ti hti c h4).2.1
    · exact (projPart_no_trig pj hpj c h5).1
  rcases cx with - | p
  · have hnp : ∀ c ∈ priPart pr ++ (datePart co ++ (datePart cr ++ ((' ' :: ti) ++
        (projPart pj ++ (ctxPart (none : Option String) ++ tagsPart ot))))),
        c ≠ '@' := by
      intro c hc
      simp only [List.mem_append] at hc
      rcases hc with h1 | h2 | h3 | h4 | h5 | h6 | h7
      · exact (priPart_no_trig pr hpr c h1).2.1
      · exact (datePart_no_trig co c h2).2.1
      · exact (datePart_no_trig cr c h3).2.1
      · exact (titleChunk_no_trig ti hti c h4).2.1
      · exact (projPart_no_trig pj hpj c h5).1
      · cases h6
      · exact (tagsPart_no_trig ot hot c h7).2.1
    have hfind := fails_findFirst ctxM _ prev [] (fails_no_at _ hnp prev [])
    rw [List.append_nil] at hfind
    rw [hfind]
    rfl
  · obtain ⟨hpne, hpw⟩ := wfWord_elim p.data (by simpa [wfOptStr] using hcx)
    have hsplit : priPart pr ++ (datePart co ++ (datePart cr ++ ((' ' :: ti) ++
        (projPart pj ++ (ctxPart (some p) ++ tagsPart ot))))) =
        (priPart pr ++ (datePart co ++ (datePart cr ++ ((' ' :: ti) ++
          projPart pj)))) ++ (ctxPart (some p) ++ tagsPart ot) := by
      simp [List.append_assoc]
    rw [hsplit, fails_findFirst ctxM _ prev _ (fails_no_at _ hnpA prev _)]
    have hshape : ctxPart (some p) ++ tagsPart ot =
        ' ' :: '@' :: (p.data ++ tagsPart ot) := by
      simp [ctxPart]
    rw [hshape, findFirst_cons_none ctxM _ ' ' _
      (ctxRun_none_of_head ' ' _ (by decide)),
      findFirst_cons_some ctxM (some ' ') '@' _ _ _
        (ctxRun_match p.data _ hpne hpw
          (fun c hc => by
            rw [tagsPart_head ot c hc]
            decide))]
    rfl

/-- `Regex::find_iter` of the tag pattern over a canonical body returns the
rendered tag tokens in order. -/
theorem master_tags (pr : Option String) (co cr : Option Date) (ti : List Char)
    (pj cx : Option String) (ot : List (String × String))
    (hpr : wfOptStr wfWord pr = true) (hti : wfTitle ti = true)
    (hpj : wfOptStr wfWord pj = true) (hcx : wfOptStr wfWord cx = true)
    (hot : ∀ kv ∈ ot, wfWord kv.1.data = true ∧ wfWord kv.2.data = true)
    (prev : Option Char) :
    findAll tagM prev
        (priPart pr ++ (datePart co ++ (datePart cr ++ ((' ' :: ti) ++
          (projPart pj ++ (ctxPart cx ++ tagsPart ot)))))) =
      ot.map (fun kv => kv.1.data ++ ':' :: kv.2.data) := by
  have hnc : ∀ c ∈ priPart pr ++ (datePart co ++ (datePart cr ++ ((' ' :: ti) ++
      (projPart pj ++ ctxPart cx)))), c ≠ ':' := by
    intro c hc
    simp only [List.mem_append] at hc
    rcases hc with h1 | h2 | h3 | h4 | h5 | h6
    · exact (priPart_no_trig pr hpr c h1).2.2.1
    · exact (datePart_no_trig co c h2).2.2.2
    · exact (datePart_no_trig cr c h3).2.2.2
    · exact (titleChunk_no_trig ti hti c h4).2.2.2.1
    · exact (projPart_no_trig pj hpj c h5).2.2.1
    · exact (ctxPart_no_trig cx hcx c h6).2.2.1
  have hsplit : priPart pr ++ (datePart co ++ (datePart cr ++ ((' ' :: ti) ++
      (projPart pj ++ (ctxPart cx ++ tagsPart ot))))) =
      (priPart pr ++ (datePart co ++ (datePart cr ++ ((' ' :: ti) ++
        (projPart pj ++ ctxPart cx))))) ++ tagsPart ot := by
    simp [List.append_assoc]
  rw [hsplit, fails_findAll tagM _ prev _
    (fails_tag_no_colon _ _ hnc
      (fun c hc => by
        rw [tagsPart_head ot c hc]
        exact ⟨by decide, by decide⟩) prev)]
  exact findAll_tags ot hot _

/-- A rendered date token contains no colon. -/
theorem dateChars_no_colon (d : Date) : ∀ c ∈ dateChars d, c ≠ ':' := by
  intro c hc
  rcases dateChars_mem d c hc with rfl | ⟨-, -, -, -, -, -, p7, -⟩
  · decide
  · exact p7

/-- Scanning one rendered date fragment with the bare-date matcher: the date
token is the next match. -/
theorem findAll_datePart_step (d : Option Date) (R : List Char) (q : Option Char)
    (hq : PrevOk q) :
    ∃ q2, PrevOk q2 ∧ findAll dateM q (datePart d ++ R) =
      (match d with | some dd => [dateChars dd] | none => []) ++ findAll dateM q2 R := by
  rcases d with - | dd
  · exact ⟨q, hq, by simp [datePart]⟩
  · refine ⟨(dateChars dd).getLast?, prevOk_getLast _ (dateChars_no_colon dd), ?_⟩
    have hshape : datePart (some dd) ++ R = ' ' :: (dateChars dd ++ R) := by
      simp [datePart]
    rw [hshape, findAll_cons_none dateM q ' ' _
      (dateRun_none_of_head q ' ' _ (by decide)),
      findAll_cons_some dateM consumes_dateM (some ' ') _ _ _
        (dateRun_match (some ' ')
          (fun c hc => by
            injection hc with h2
            subst h2
            decide) dd R)]
    rfl

/-- `Regex::find_iter` of the bare-date pattern over a canonical body returns
the completion token then the creation token. -/
theorem master_dates (pr : Option String) (co cr : Option Date) (ti : List Char)
    (pj cx : Option String) (ot : List (String × String))
    (hpr : wfOptStr wfWord pr = true) (hti : wfTitle ti = true)
    (hpj : wfOptStr wfWord pj = true) (hcx : wfOptStr wfWord cx = true)
    (hot : ∀ kv ∈ ot, wfWord kv.1.data = true ∧ wfWord kv.2.data = true)
    (prev : Option Char) (hprev : PrevOk prev) :
    findAll dateM prev
        (priPart pr ++ (datePart co ++ (datePart cr ++ ((' ' :: ti) ++
          (projPart pj ++ (ctxPart cx ++ tagsPart ot)))))) =
      (match co with | some d => [dateChars d] | none => []) ++
        (match cr with | some d => [dateChars d] | none => []) := by
  have hR2head : ∀ c, ((' ' :: ti) ++ (projPart pj ++ (ctxPart cx ++ tagsPart ot))).head? =
      some c → c = ' ' := by
    intro c hc
    rw [List.cons_append, List.head?_cons] at hc
    injection hc with h2
    exact h2.symm
  have hR1head : ∀ c, (datePart cr ++ ((' ' :: ti) ++ (projPart pj ++
      (ctxPart cx ++ tagsPart ot)))).head? = some c → c = ' ' :=
    head_space_append _ _ (datePart_head cr) hR2head
  have hR0head : ∀ c, (datePart co ++ (datePart cr ++ ((' ' :: ti) ++ (projPart pj ++
      (ctxPart cx ++ tagsPart ot))))).head? = some c → c = ' ' :=
    head_space_append _ _ (datePart_head co) hR1head
  have hskip := fails_findAll dateM (priPart pr) prev _
    (fails_date_no_dash (priPart pr) _
      (fun c hc => (priPart_no_trig pr hpr c hc).2.2.2)
      (fun c hc => by
        rw [hR0head c hc]
        exact ⟨by decide, by decide⟩) prev)
  rw [hskip]
  have hq1 : PrevOk (lastOr prev (priPart pr)) :=
    prevOk_lastOr (priPart pr) (fun c hc => (priPart_no_trig pr hpr c hc).2.2.1)
      prev hprev
  obtain ⟨q2, hq2, hstep1⟩ := findAll_datePart_step co _ _ hq1
  rw [hstep1]
  obtain ⟨q3, hq3, hstep2⟩ := findAll_datePart_step cr _ _ hq2
  rw [hstep2]
  have htailfail := fails_findAll dateM ((' ' :: ti) ++ (projPart pj ++
      (ctxPart cx ++ tagsPart ot))) q3 []
    (fails_date_no_dash _ []
      (fun c hc => by
        simp only [List.mem_append] at hc
        rcases hc with h1 | h2 | h3 | h4
        · exact (titleChunk_no_trig ti hti c h1).2.2.2.2
        · exact (projPart_no_trig pj hpj c h2).2.2.2
        · exact (ctxPart_no_trig cx hcx c h3).2.2.2
        · exact (tagsPart_no_trig ot hot c h4).2.2.2)
      (fun c hc => by cases hc) q3)
  rw [List.append_nil] at htailfail
  rw [htailfail]
  simp [findAll, findAllAux]

/-- Replacement over a rendered ` (P)` fragment: the priority token is
deleted, its leading space kept. -/
theorem replaceAll_priPart (pr : Option String) (hpr : wfOptStr wfWord pr = true)
    (R : List Char) (q : Option Char) (hq : PrevOk q) :
    ∃ s q2, replaceAll titleM q (priPart pr ++ R) = s ++ replaceAll titleM q2 R ∧
      (∀ c ∈ s, isSpaceChar c = true) ∧ PrevOk q2 := by
  rcases pr with - | p
  · exact ⟨[], q, by simp [priPart], fun c hc => absurd hc (List.not_mem_nil c), hq⟩
  · obtain ⟨hpne, hpw⟩ := wfWord_elim p.data (by simpa [wfOptStr] using hpr)
    refine ⟨[' '], ('(' :: p.data ++ [')']).getLast?, ?_, ?_, ?_⟩
    · have hshape : priPart (some p) ++ R = ' ' :: '(' :: (p.data ++ ')' :: R) := by
        simp [priPart]
      rw [hshape, replaceAll_cons_none titleM q ' ' _
        (titleRun_none_of_space q ' ' _ (by decide)),
        replaceAll_cons_some titleM consumes_titleM (some ' ') _ _ _
          (titleRun_at_pri (some ' ') p.data R hpne hpw)]
      rfl
    · intro c hc
      simp only [List.mem_singleton] at hc
      subst hc
      decide
    · apply prevOk_getLast
      intro c hc
      simp only [List.cons_append, List.mem_cons, List.mem_append,
        List.mem_singleton, List.not_mem_nil, or_false] at hc
      rcases hc with rfl | hc | rfl
      · decide
      · exact (isWordChar_props c (hpw c hc)).2.2.2.2.2.2.1
      · decide

/-- Replacement over a rendered date fragment: the date token is deleted, its
leading space kept. -/
theorem replaceAll_datePartT (d : Option Date) (R : List Char) (q : Option Char)
    (hq : PrevOk q) :
    ∃ s q2, replaceAll titleM q (datePart d ++ R) = s ++ replaceAll titleM q2 R ∧
      (∀ c ∈ s, isSpaceChar c = true) ∧ PrevOk q2 := by
  rcases d with - | dd
  · exact ⟨[], q, by simp [datePart], fun c hc => absurd hc (List.not_mem_nil c), hq⟩
  · refine ⟨[' '], (dateChars dd).getLast?, ?_, ?_,
      prevOk_getLast _ (dateChars_no_colon dd)⟩
    · have hshape : datePart (some dd) ++ R = ' ' :: (dateChars dd ++ R) := by
        simp [datePart]
      rw [hshape, replaceAll_cons_none titleM q ' ' _
        (titleRun_none_of_space q ' ' _ (by decide)),
        replaceAll_cons_some titleM consumes_titleM (some ' ') _ _ _
          (titleRun_at_date (some ' ')
            (fun c hc => by
              injection hc with h2
              subst h2
              decide) dd R)]
      rfl
    · intro c hc
      simp only [List.mem_singleton] at hc
      subst hc
      decide

/-- Replacement copies the rendered title chunk unchanged. -/
theorem replaceAll_titleChunk (ti : List Char) (hti : wfTitle ti = true)
    (R : List Char) (hRhead : ∀ c, R.head? = some c → c = ' ')
    (q : Option Char) (hq : PrevOk q) :
    ∃ q2, replaceAll titleM q ((' ' :: ti) ++ R) =
      (' ' :: ti) ++ replaceAll titleM q2 R ∧ PrevOk q2 := by
  have hfails : Fails titleM q (' ' :: ti) R :=
    fails_title_of_components (' ' :: ti) q R
      (fails_no_plus _ (fun c hc => (titleChunk_no_trig ti hti c hc).1) q R)
      (fails_no_at _ (fun c hc => (titleChunk_no_trig ti hti c hc).2.1) q R)
      (fails_no_paren _ (fun c hc => (titleChunk_no_trig ti hti c hc).2.2.1) q R)
      (fails_tag_no_colon _ _ (fun c hc => (titleChunk_no_trig ti hti c hc).2.2.2.1)
        (fun c hc => by
          rw [hRhead c hc]
          exact ⟨by decide, by decide⟩) q)
      (fails_date_no_dash _ _ (fun c hc => (titleChunk_no_trig ti hti c hc).2.2.2.2)
        (fun c hc => by
          rw [hRhead c hc]
          exact ⟨by decide, by decide⟩) q)
  refine ⟨lastOr q (' ' :: ti), fails_replaceAll titleM (' ' :: ti) q R hfails, ?_⟩
  exact prevOk_lastOr (' ' :: ti)
    (fun c hc => (titleChunk_no_trig ti hti c hc).2.2.2.1) q hq

/-- Replacement over a rendered ` +project` fragment: the project token is
deleted, its leading space kept. -/
theorem replaceAll_projPart (pj : Option String) (hpj : wfOptStr wfWord pj = true)
    (R : List Char) (hRw : ∀ c, R.head? = some c → isWordChar c = false)
    (q : Option Char) (hq : PrevOk q) :
    ∃ s q2, replaceAll titleM q (projPart pj ++ R) = s ++ replaceAll titleM q2 R ∧
      (∀ c ∈ s, isSpaceChar c = true) ∧ PrevOk q2 := by
  rcases pj with - | p
  · exact ⟨[], q, by simp [projPart], fun c hc => absurd hc (List.not_mem_nil c), hq⟩
  · obtain ⟨hpne, hpw⟩ := wfWord_elim p.data (by simpa [wfOptStr] using hpj)
    refine ⟨[' '], ('+' :: p.data).getLast?, ?_, ?_,
      prevOk_cons_word '+' p.data (by decide) hpw⟩
    · have hshape : projPart (some p) ++ R = ' ' :: '+' :: (p.data ++ R) := by
        simp [projPart]
      rw [hshape, replaceAll_cons_none titleM q ' ' _
        (titleRun_none_of_space q ' ' _ (by decide)),
        replaceAll_cons_some titleM consumes_titleM (some ' ') _ _ _
          (titleRun_at_proj (some ' ') p.data R hpne hpw hRw)]
      rfl
    · intro c hc
      simp only [List.mem_singleton] at hc
      subst hc
      decide

/-- Replacement over a rendered ` @context` fragment: the context token is
deleted, its leading space kept. -/
theorem replaceAll_ctxPart (cx : Option String) (hcx : wfOptStr wfWord cx = true)
    (R : List Char) (hRw : ∀ c, R.head? = some c → isWordChar c = false)
    (q : Option Char) (hq : PrevOk q) :
    ∃ s q2, replaceAll titleM q (ctxPart cx ++ R) = s ++ replaceAll titleM q2 R ∧
      (∀ c ∈ s, isSpaceChar c = true) ∧ PrevOk q2 := by
  rcases cx with - | p
  · exact ⟨[], q, by simp [ctxPart], fun c hc => absurd hc (List.not_mem_nil c), hq⟩
  · obtain ⟨hpne, hpw⟩ := wfWord_elim p.data (by simpa [wfOptStr] using hcx)
    refine ⟨[' '], ('@' :: p.data).getLast?, ?_, ?_,
      prevOk_cons_word '@' p.data (by decide) hpw⟩
    · have hshape : ctxPart (some p) ++ R = ' ' :: '@' :: (p.data ++ R) := by
        simp [ctxPart]
      rw [hshape, replaceAll_cons_none titleM q ' ' _
        (titleRun_none_of_space q ' ' _ (by decide)),
        replaceAll_cons_some titleM consumes_titleM (some ' ') _ _ _
          (titleRun_at_ctx (some ' ') p.data R hpne hpw hRw)]
      rfl
    · intro c hc
      simp only [List.mem_singleton] at hc
      subst hc
      decide

/-- Replacement over the rendered tag fragments leaves only spaces. -/
theorem replaceAll_tagsPart (ot : List (String × String))
    (hot : ∀ kv ∈ ot, wfWord kv.1.data = true ∧ wfWord kv.2.data = true) :
    ∀ q, ∃ s, replaceAll titleM q (tagsPart ot) = s ∧
      (∀ c ∈ s, isSpaceChar c = true) := by
  induction ot with
  | nil =>
    intro q
    exact ⟨[], by simp [tagsPart, replaceAll, replaceAllAux],
      fun c hc => absurd hc (List.not_mem_nil c)⟩
  | cons kv ot ih =>
    intro q
    obtain ⟨hk, hv⟩ := hot kv (List.mem_cons_self ..)
    obtain ⟨hkne, hkw⟩ := wfWord_elim _ hk
    obtain ⟨hvne, hvw⟩ := wfWord_elim _ hv
    obtain ⟨s, hs, hsp⟩ := ih (fun kv2 h2 => hot kv2 (List.mem_cons_of_mem _ h2))
      ((kv.1.data ++ ':' :: kv.2.data).getLast?)
    refine ⟨' ' :: s, ?_, ?_⟩
    · have hshape : tagsPart (kv :: ot) =
          ' ' :: (kv.1.data ++ ':' :: (kv.2.data ++ tagsPart ot)) := by
        rw [tagsPart_cons]
        simp
      rw [hshape, replaceAll_cons_none titleM q ' ' _
        (titleRun_none_of_space q ' ' _ (by decide)),
        replaceAll_cons_some titleM consumes_titleM (some ' ') _ _ _
          (titleRun_at_tag (some ' ') kv.1.data kv.2.data (tagsPart ot) hkne hvne
            hkw hvw (tagsPart_head ot)), hs]
    · intro c hc
      simp only [List.mem_cons] at hc
      rcases hc with rfl | hc
      · decide
      · exact hsp c hc

/-- `Regex::replace_all` of the removal alternation over a canonical body
keeps exactly the title chunk, surrounded by whitespace. -/
theorem master_title (pr : Option String) (co cr : Option Date) (ti : List Char)
    (pj cx : Option String) (ot : List (String × String))
    (hpr : wfOptStr wfWord pr = true) (hti : wfTitle ti = true)
    (hpj : wfOptStr wfWord pj = true) (hcx : wfOptStr wfWord cx = true)
    (hot : ∀ kv ∈ ot, wfWord kv.1.data = true ∧ wfWord kv.2.data = true)
    (q : Option Char) (hq : PrevOk q) :
    ∃ s1 s2, replaceAll titleM q
        (priPart pr ++ (datePart co ++ (datePart cr ++ ((' ' :: ti) ++
          (projPart pj ++ (ctxPart cx ++ tagsPart ot)))))) =
      s1 ++ ((' ' :: ti) ++ s2) ∧
      (∀ c ∈ s1, isSpaceChar c = true) ∧ (∀ c ∈ s2, isSpaceChar c = true) := by
  obtain ⟨sa, q1, hA, hAsp, hq1⟩ := replaceAll_priPart pr hpr _ q hq
  obtain ⟨sb, q2, hB, hBsp, hq2⟩ := replaceAll_datePartT co _ q1 hq1
  obtain ⟨sc, q3, hC, hCsp, hq3⟩ := replaceAll_datePartT cr _ q2 hq2
  obtain ⟨q4, hD, hq4⟩ := replaceAll_titleChunk ti hti _
    (head_space_append _ _ (projPart_head pj)
      (head_space_append _ _ (ctxPart_head cx) (tagsPart_head ot))) q3 hq3
  obtain ⟨se, q5, hE, hEsp, hq5⟩ := replaceAll_projPart pj hpj _
    (fun c hc => by
      rw [head_space_append _ _ (ctxPart_head cx) (tagsPart_head ot) c hc]
      decide) q4 hq4
  obtain ⟨sf, q6, hF, hFsp, hq6⟩ := replaceAll_ctxPart cx hcx _
    (fun c hc => by
      rw [tagsPart_head ot c hc]
      decide) q5 hq5
  obtain ⟨sg, hG, hGsp⟩ := replaceAll_tagsPart ot hot q6
  refine ⟨sa ++ (sb ++ sc), se ++ (sf ++ sg), ?_, ?_, ?_⟩
  · rw [hA, hB, hC, hD, hE, hF, hG]
    simp [List.append_assoc]
  · intro c hc
    simp only [List.mem_append] at hc
    rcases hc with h1 | h2 | h3
    · exact hAsp c h1
    · exact hBsp c h2
    · exact hCsp c h3
  · intro c hc
    simp only [List.mem_append] at hc
    rcases hc with h1 | h2 | h3
    · exact hEsp c h1
    · exact hFsp c h2
    · exact hGsp c h3

/-- Combining last-character bounds across an append. -/
theorem last_nonspace_append (x y : List Char)
    (hx : ∀ c, x.getLast? = some c → isSpaceChar c = false)
    (hy : ∀ c, y.getLast? = some c → isSpaceChar c = false) :
    ∀ c, (x ++ y).getLast? = some c → isSpaceChar c = false := by
  intro c hc
  rw [List.getLast?_append] at hc
  rcases hh : y.getLast? with - | c2
  · rw [hh] at hc
    exact hx c hc
  · rw [hh] at hc
    injection hc with h2
    subst h2
    exact hy c2 hh

/-- The last character of a rendered ` (P)` fragment is not whitespace. -/
theorem priPart_last (pr : Option String) :
    ∀ c, (priPart pr).getLast? = some c → isSpaceChar c = false := by
  rcases pr with - | p
  · intro c hc
    cases hc
  · intro c hc
    have hre : priPart (some p) = ([' ', '('] ++ p.data) ++ [')'] := by
      simp [priPart]
    rw [hre, List.getLast?_append] at hc
    injection hc with h2
    subst h2
    decide

/-- The last character of a rendered date fragment is not whitespace. -/
theorem datePartT_last (d : Option Date) :
    ∀ c, (datePart d).getLast? = some c → isSpaceChar c = false := by
  rcases d with - | dd
  · intro c hc
    cases hc
  · intro c hc
    have hre : datePart (some dd) =
        (' ' :: (digit4 dd.year ++ '-' :: digit2 dd.month ++ ['-', digitChar (dd.day / 10 % 10)])) ++
          [digitChar (dd.day % 10)] := by
      simp [datePart, dateChars, digit4, digit2]
    rw [hre, List.getLast?_append] at hc
    injection hc with h2
    subst h2
    exact (digitChar_props dd.day).2.2.1

/-- The last character of the rendered title chunk is not whitespace. -/
theorem titleChunk_last (ti : List Char) (hti : wfTitle ti = true) :
    ∀ c, ((' ' :: ti) : List Char).getLast? = some c → isSpaceChar c = false := by
  obtain ⟨hne, -, -, hlast⟩ := wfTitle_elim ti hti
  intro c hc
  obtain ⟨c2, hc2⟩ := getLast_some_of_ne_nil ti hne
  rw [show (' ' :: ti : List Char) = [' '] ++ ti from rfl, List.getLast?_append, hc2] at hc
  injection hc with h2
  subst h2
  exact (hlast _ hc2).2

/-- The last character of a rendered ` +project` fragment is not whitespace. -/
theorem projPart_last (pj : Option String) (hpj : wfOptStr wfWord pj = true) :
    ∀ c, (projPart pj).getLast? = some c → isSpaceChar c = false := by
  rcases pj with - | p
  · intro c hc
    cases hc
  · obtain ⟨hpne, hpw⟩ := wfWord_elim p.data (by simpa [wfOptStr] using hpj)
    intro c hc
    obtain ⟨c2, hc2⟩ := getLast_some_of_ne_nil p.data hpne
    rw [show projPart (some p) = [' ', '+'] ++ p.data from by simp [projPart],
      List.getLast?_append, hc2] at hc
    injection hc with h2
    subst h2
    exact (isWordChar_props c2 (hpw c2 (mem_of_getLast_eq _ _ hc2))).1

/-- The last character of a rendered ` @context` fragment is not whitespace. -/
theorem ctxPart_last (cx : Option String) (hcx : wfOptStr wfWord cx = true) :
    ∀ c, (ctxPart cx).getLast? = some c → isSpaceChar c = false := by
  rcases cx with - | p
  · intro c hc
    cases hc
  · obtain ⟨hpne, hpw⟩ := wfWord_elim p.data (by simpa [wfOptStr] using hcx)
    intro c hc
    obtain ⟨c2, hc2⟩ := getLast_some_of_ne_nil p.data hpne
    rw [show ctxPart (some p) = [' ', '@'] ++ p.data from by simp [ctxPart],
      List.getLast?_append, hc2] at hc
    injection hc with h2
    subst h2
    exact (isWordChar_props c2 (hpw c2 (mem_of_getLast_eq _ _ hc2))).1

/-- The last character of the rendered tag fragments is not whitespace. -/
theorem tagsPart_last (ot : List (String × String))
    (hot : ∀ kv ∈ ot, wfWord kv.1.data = true ∧ wfWord kv.2.data = true) :
    ∀ c, (tagsPart ot).getLast? = some c → isSpaceChar c = false := by
  induction ot with
  | nil =>
    intro c hc
    cases hc
  | cons kv ot ih =>
    obtain ⟨hk, hv⟩ := hot kv (List.mem_cons_self ..)
    obtain ⟨hvne, hvw⟩ := wfWord_elim _ hv
    have hchunk : ∀ c, ((' ' :: (kv.1.data ++ ':' :: kv.2.data)) : List Char).getLast? =
        some c → isSpaceChar c = false := by
      intro c hc
      obtain ⟨c2, hc2⟩ := getLast_some_of_ne_nil kv.2.data hvne
      rw [show (' ' :: (kv.1.data ++ ':' :: kv.2.data) : List Char) =
          ((' ' :: kv.1.data) ++ [':']) ++ kv.2.data from by simp,
        List.getLast?_append, hc2] at hc
      injection hc with h2
      subst h2
      exact (isWordChar_props c2 (hvw c2 (mem_of_getLast_eq _ _ hc2))).1
    rw [tagsPart_cons]
    exact last_nonspace_append _ _ hchunk
      (ih (fun kv2 h2 => hot kv2 (List.mem_cons_of_mem _ h2)))

/-- The last character of a canonical body is not whitespace. -/
theorem body_last (pr : Option String) (co cr : Option Date) (ti : List Char)
    (pj cx : Option String) (ot : List (String × String))
    (hpr : wfOptStr wfWord pr = true) (hti : wfTitle ti = true)
    (hpj : wfOptStr wfWord pj = true) (hcx : wfOptStr wfWord cx = true)
    (hot : ∀ kv ∈ ot, wfWord kv.1.data = true ∧ wfWord kv.2.data = true) :
    ∀ c, (priPart pr ++ (datePart co ++ (datePart cr ++ ((' ' :: ti) ++
        (projPart pj ++ (ctxPart cx ++ tagsPart ot)))))).getLast? = some c →
      isSpaceChar c = false := by
  refine last_nonspace_append _ _ (priPart_last pr) ?_
  refine last_nonspace_append _ _ (datePartT_last co) ?_
  refine last_nonspace_append _ _ (datePartT_last cr) ?_
  refine last_nonspace_append _ _ (titleChunk_last ti hti) ?_
  refine last_nonspace_append _ _ (projPart_last pj hpj) ?_
  exact last_nonspace_append _ _ (ctxPart_last cx hcx) (tagsPart_last ot hot)

/-- The canonical body is a space followed by a non-space character; when the
record is completed and title-first, that character is not `x` by `WF`. -/
theorem body_shape (pr : Option String) (co cr : Option Date) (ti : List Char)
    (pj cx : Option String) (ot : List (String × String))
    (hpr : wfOptStr wfWord pr = true) (hti : wfTitle ti = true) :
    ∃ c0 T2, priPart pr ++ (datePart co ++ (datePart cr ++ ((' ' :: ti) ++
        (projPart pj ++ (ctxPart cx ++ tagsPart ot))))) = ' ' :: c0 :: T2 ∧
      isSpaceChar c0 = false ∧
      (c0 ≠ 'x' ∨ (pr = none ∧ co = none ∧ cr = none ∧ ti.head? = some c0)) := by
  rcases pr with - | p
  · rcases co with - | d1
    · rcases cr with - | d2
      · obtain ⟨hne, -, hhead, -⟩ := wfTitle_elim ti hti
        rcases hT : ti with - | ⟨t0, ti2⟩
        · exact absurd hT hne
        · refine ⟨t0, ti2 ++ (projPart pj ++ (ctxPart cx ++ tagsPart ot)), ?_, ?_, ?_⟩
          · simp [priPart, datePart, hT]
          · exact (hhead t0 (by simp [hT])).2
          · exact Or.inr ⟨rfl, rfl, rfl, by simp [hT]⟩
      · refine ⟨digitChar (d2.year / 1000 % 10),
          [digitChar (d2.year / 100 % 10), digitChar (d2.year / 10 % 10),
            digitChar (d2.year % 10), '-', digitChar (d2.month / 10 % 10),
            digitChar (d2.month % 10), '-', digitChar (d2.day / 10 % 10),
            digitChar (d2.day % 10)] ++
            ((' ' :: ti) ++ (projPart pj ++ (ctxPart cx ++ tagsPart ot))), ?_, ?_, ?_⟩
        · simp [priPart, datePart, dateChars, digit4, digit2]
        · exact (digitChar_props (d2.year / 1000)).2.2.1
        · exact Or.inl (digitChar_props (d2.year / 1000)).2.2.2.1
    · refine ⟨digitChar (d1.year / 1000 % 10),
        [digitChar (d1.year / 100 % 10), digitChar (d1.year / 10 % 10),
          digitChar (d1.year % 10), '-', digitChar (d1.month / 10 % 10),
          digitChar (d1.month % 10), '-', digitChar (d1.day / 10 % 10),
          digitChar (d1.day % 10)] ++
          (datePart cr ++ ((' ' :: ti) ++ (projPart pj ++ (ctxPart cx ++ tagsPart ot)))),
        ?_, ?_, ?_⟩
      · simp [priPart, datePart, dateChars, digit4, digit2]
      · exact (digitChar_props (d1.year / 1000)).2.2.1
      · exact Or.inl (digitChar_props (d1.year / 1000)).2.2.2.1
  · refine ⟨'(', (p.data ++ [')']) ++
      (datePart co ++ (datePart cr ++ ((' ' :: ti) ++
        (projPart pj ++ (ctxPart cx ++ tagsPart ot))))), ?_, by decide,
      Or.inl (by decide)⟩
    simp [priPart]

/-- Removing trailing whitespace after a block that ends without it. -/
theorem dropTrailing_block (a b : List Char) (hb : ∀ c ∈ b, isSpaceChar c = true)
    (ha : ∀ c, a.getLast? = some c → isSpaceChar c = false) :
    dropTrailingSpaces (a ++ b) = a := by
  unfold dropTrailingSpaces
  rw [List.reverse_append]
  rw [(takeWhile_block isSpaceChar b.reverse a.reverse
    (fun c hc => hb c (List.mem_reverse.mp hc))
    (fun c hc => ha c (by rw [List.getLast?_eq_head?_reverse]; exact hc))).2]
  exact List.reverse_reverse a

/-- `str::trim` of a non-space block surrounded by whitespace. -/
theorem trimChars_block (s1 t s2 : List Char) (h1 : ∀ c ∈ s1, isSpaceChar c = true)
    (h2 : ∀ c ∈ s2, isSpaceChar c = true) (ht : t ≠ [])
    (hth : ∀ c, t.head? = some c → isSpaceChar c = false)
    (htl : ∀ c, t.getLast? = some c → isSpaceChar c = false) :
    trimChars (s1 ++ (t ++ s2)) = t := by
  have hhead : ∀ c, (t ++ s2).head? = some c → isSpaceChar c = false := by
    intro c hc
    rcases hT : t with - | ⟨t0, t2⟩
    · exact absurd hT ht
    · rw [hT, List.cons_append, List.head?_cons] at hc
      injection hc with h3
      subst h3
      exact hth t0 (by rw [hT]; rfl)
  unfold trimChars
  rw [(takeWhile_block isSpaceChar s1 (t ++ s2) h1 hhead).2]
  exact dropTrailing_block t s2 h2 htl

/-- A leading space does not change the first priority match. -/
theorem findFirst_priM_space (X : List Char) :
    findFirst priM none (' ' :: X) = findFirst priM none X := by
  rw [findFirst_cons_none priM none ' ' X (priRun_none_of_head ' ' X (by decide))]
  exact findFirst_init_prev priM (some ' ') none (fun _ => rfl) X

/-- A leading space does not change the first project match. -/
theorem findFirst_projM_space (X : List Char) :
    findFirst projM none (' ' :: X) = findFirst projM none X := by
  rw [findFirst_cons_none projM none ' ' X (projRun_none_of_head ' ' X (by decide))]
  exact findFirst_init_prev projM (some ' ') none (fun _ => rfl) X

/-- A leading space does not change the first context match. -/
theorem findFirst_ctxM_space (X : List Char) :
    findFirst ctxM none (' ' :: X) = findFirst ctxM none X := by
  rw [findFirst_cons_none ctxM none ' ' X (ctxRun_none_of_head ' ' X (by decide))]
  exact findFirst_init_prev ctxM (some ' ') none (fun _ => rfl) X

/-- A leading space does not change the tag matches. -/
theorem findAll_tagM_space (X : List Char) :
    findAll tagM none (' ' :: X) = findAll tagM none X := by
  rw [findAll_cons_none tagM none ' ' X (tagRun_none_of_head ' ' X (by decide))]
  exact findAll_init_prev tagM (some ' ') none (fun _ => rfl) X

/-- A leading space does not change the bare-date matches. -/
theorem findAll_dateM_space (X : List Char) :
    findAll dateM none (' ' :: X) = findAll dateM none X := by
  rw [findAll_cons_none dateM none ' ' X (dateRun_none_of_head none ' ' X (by decide))]
  exact findAll_init_prev dateM (some ' ') none
    (fun s2 => by simp [dateM, dateRun]) X

/-- A leading space is copied by title removal and does not change the rest. -/
theorem replaceAll_titleM_space (X : List Char) :
    replaceAll titleM none (' ' :: X) = ' ' :: replaceAll titleM none X := by
  rw [replaceAll_cons_none titleM none ' ' X
    (titleRun_none_of_space none ' ' X (by decide))]
  congr 1
  refine replaceAll_init_prev titleM (some ' ') none (fun s2 => ?_) X
  have hd : dateRun (some ' ') s2 = dateRun none s2 := by
    simp [dateRun]
  simp only [titleM, titleRun, hd]

/-- `parse_title` does not strip anything from a content whose first
character is not `x`. -/
theorem titleOf_not_x (c0 : Char) (T : List Char) (h : c0 ≠ 'x') :
    titleOf (String.mk (c0 :: T)) = titleCore (c0 :: T) := by
  unfold titleOf
  split
  · rename_i rest heq
    injection heq with h1 h2
    exact absurd h1 h
  · rfl


/-- `parse_dates` on a content whose bare-date matches are the rendered
completion and creation tokens. -/
theorem datesOf_of_findAll (co cr : Option Date) (D : List Char)
    (hD : findAll dateM none D =
      (match co with | some d => [dateChars d] | none => []) ++
        (match cr with | some d => [dateChars d] | none => []))
    (hco : wfDate co = true) (hcr : wfDate cr = true) :
    datesOf (String.mk D) = .ok ((reparseDates co cr).1, (reparseDates co cr).2) := by
  unfold datesOf
  rw [show (String.mk D).data = D from rfl, hD]
  rcases co with - | a
  · rcases cr with - | b
    · rfl
    · simp [parseDate10_dateChars b hcr, reparseDates]
  · rcases cr with - | b
    · simp [parseDate10_dateChars a hco, reparseDates]
    · simp [parseDate10_dateChars a hco, parseDate10_dateChars b hcr, reparseDates]

/-- `parse_priority` on a content whose first priority match is the rendered
token. -/
theorem priorityOf_of_findFirst (pr : Option String) (D : List Char)
    (hD : findFirst priM none D = pr.map (fun p => '(' :: (p.data ++ [')']))) :
    priorityOf (String.mk D) = pr := by
  unfold priorityOf
  rw [show (String.mk D).data = D from rfl, hD]
  rcases pr with - | p
  · rfl
  · simp

/-- `parse_project` on a content whose first project match is the rendered
token. -/
theorem projectOf_of_findFirst (pj : Option String) (D : List Char)
    (hD : findFirst projM none D = pj.map (fun p => '+' :: p.data)) :
    projectOf (String.mk D) = pj := by
  unfold projectOf
  rw [show (String.mk D).data = D from rfl, hD]
  rcases pj with - | p
  · rfl
  · simp

/-- `parse_context` on a content whose first context match is the rendered
token. -/
theorem contextOf_of_findFirst (cx : Option String) (D : List Char)
    (hD : findFirst ctxM none D = cx.map (fun p => '@' :: p.data)) :
    contextOf (String.mk D) = cx := by
  unfold contextOf
  rw [show (String.mk D).data = D from rfl, hD]
  rcases cx with - | p
  · rfl
  · simp

/-- `parse_tags` on a content whose tag matches are the rendered tokens. -/
theorem tagsOf_of_findAll (ot : List (String × String))
    (hotp : ∀ kv ∈ ot, wfWord kv.1.data = true ∧ wfWord kv.2.data = true)
    (hnd : (ot.map Prod.fst).Nodup) (D : List Char)
    (hD : findAll tagM none D = ot.map (fun kv => kv.1.data ++ ':' :: kv.2.data)) :
    tagsOf (String.mk D) = ot := by
  unfold tagsOf
  rw [show (String.mk D).data = D from rfl, hD,
    foldl_tags_rebuild ot hotp hnd [] (fun kv _ => by simp)]
  rfl

/-- Parsing the rendering of a canonical record succeeds and reproduces every
field except the dates, which are re-read in rendered order (completion token
first), and the stored content. -/
theorem parse_render_ok (t : Todo) (h : WF t = true) :
    Todo.parse (Todo.render t) =
      .ok { t with
        creation := (reparseDates t.completion t.creation).1,
        completion := (reparseDates t.completion t.creation).2,
        content := parseContent (Todo.render t) } := by
  obtain ⟨tis, comp, pr, co, cr, pj, cx, ot, ct⟩ := t
  simp only [WF, Bool.and_eq_true] at h
  obtain ⟨⟨⟨⟨⟨⟨⟨hpr, hco⟩, hcr⟩, hti⟩, hpj⟩, hcx⟩, hot0⟩, hmark⟩ := h
  obtain ⟨hotp, hnd⟩ := wfTags_elim ot hot0
  obtain ⟨htine, htimem, htihead, htilast⟩ := wfTitle_elim tis.data hti
  have hbody : bodyChars ⟨tis, comp, pr, co, cr, pj, cx, ot, ct⟩ =
      priPart pr ++ (datePart co ++ (datePart cr ++ ((' ' :: tis.data) ++
        (projPart pj ++ (ctxPart cx ++ tagsPart ot))))) := by
    simp [bodyChars, List.append_assoc]
  obtain ⟨c0, T2, hBS, hc0ns, hc0x⟩ := body_shape pr co cr tis.data pj cx ot hpr hti
  have hlastB := body_last pr co cr tis.data pj cx ot hpr hti hpj hcx hotp
  have hlast2 : ∀ c, (c0 :: T2).getLast? = some c → isSpaceChar c = false := by
    intro c hc
    apply hlastB c
    rw [hBS, show (' ' :: c0 :: T2 : List Char) = [' '] ++ (c0 :: T2) from rfl,
      List.getLast?_append, hc]
    rfl
  have htrimRB : trimChars (' ' :: c0 :: T2) = c0 :: T2 := by
    rw [show (' ' :: c0 :: T2 : List Char) = [' '] ++ ((c0 :: T2) ++ []) from by simp]
    exact trimChars_block [' '] (c0 :: T2) []
      (fun c hc => by
        simp only [List.mem_singleton] at hc
        subst hc
        decide)
      (fun c hc => absurd hc (List.not_mem_nil c))
      (by simp)
      (fun c hc => by
        rw [List.head?_cons] at hc
        injection hc with h2
        subst h2
        exact hc0ns)
      hlast2
  have hprev0 : PrevOk none := fun c hc => by cases hc
  have hPRI := master_pri pr co cr tis.data pj cx ot hpr hti hpj hcx hotp none
  have hPROJ := master_proj pr co cr tis.data pj cx ot hpr hti hpj hcx hotp none
  have hCTX := master_ctx pr co cr tis.data pj cx ot hpr hti hpj hcx hotp none
  have hTAGS := master_tags pr co cr tis.data pj cx ot hpr hti hpj hcx hotp none
  have hDATES := master_dates pr co cr tis.data pj cx ot hpr hti hpj hcx hotp none hprev0
  obtain ⟨s1, s2, hTITLE, hs1, hs2⟩ :=
    master_title pr co cr tis.data pj cx ot hpr hti hpj hcx hotp none hprev0
  have htrim_main : trimChars (s1 ++ ((' ' :: tis.data) ++ s2)) = tis.data := by
    rw [show s1 ++ ((' ' :: tis.data) ++ s2) = (s1 ++ [' ']) ++ (tis.data ++ s2) from
      by simp]
    refine trimChars_block (s1 ++ [' ']) tis.data s2 ?_ hs2 htine
      (fun c hc => (htihead c hc).2) (fun c hc => (htilast c hc).2)
    intro c hc
    simp only [List.mem_append, List.mem_singleton] at hc
    rcases hc with hc | rfl
    · exact hs1 c hc
    · decide
  have hie : tis.data.isEmpty = false := by
    rcases hd : tis.data with - | ⟨a, b⟩
    · exact absurd hd htine
    · rfl
  have htitleRB : titleCore (' ' :: c0 :: T2) = .ok tis := by
    unfold titleCore
    rw [← hBS]
    simp only [hTITLE, htrim_main, hie]
    rfl
  have htitleTail : titleCore (c0 :: T2) = .ok tis := by
    unfold titleCore
    have h1 : replaceAll titleM none (' ' :: c0 :: T2) =
        ' ' :: replaceAll titleM none (c0 :: T2) := replaceAll_titleM_space (c0 :: T2)
    have h3 : trimChars (replaceAll titleM none (' ' :: c0 :: T2)) = tis.data := by
      rw [← hBS, hTITLE]
      exact htrim_main
    rw [h1] at h3
    rw [show trimChars (' ' :: replaceAll titleM none (c0 :: T2)) =
        trimChars (replaceAll titleM none (c0 :: T2)) from rfl] at h3
    simp only [h3, hie]
    rfl
  cases comp with
  | false =>
    have hlist : (if (false : Bool) then ['x'] else []) ++
        bodyChars ⟨tis, false, pr, co, cr, pj, cx, ot, ct⟩ = ' ' :: c0 :: T2 := by
      rw [if_neg (by simp), List.nil_append, hbody, hBS]
    have hreq : Todo.render ⟨tis, false, pr, co, cr, pj, cx, ot, ct⟩ =
        String.mk (' ' :: c0 :: T2) := by
      unfold Todo.render
      exact congrArg String.mk hlist
    have hsx : startsX (String.mk (' ' :: c0 :: T2)) = false := by
      simp [startsX]
    have hpcq : parseContent (String.mk (' ' :: c0 :: T2)) =
        String.mk (' ' :: c0 :: T2) := by
      simp [parseContent, hsx]
    rw [parse_eq, hreq, hpcq]
    rw [titleOf_not_x ' ' (c0 :: T2) (by decide), htitleRB,
      datesOf_of_findAll co cr (' ' :: c0 :: T2) (hBS ▸ hDATES) hco hcr,
      priorityOf_of_findFirst pr (' ' :: c0 :: T2) (hBS ▸ hPRI),
      projectOf_of_findFirst pj (' ' :: c0 :: T2) (hBS ▸ hPROJ),
      contextOf_of_findFirst cx (' ' :: c0 :: T2) (hBS ▸ hCTX),
      tagsOf_of_findAll ot hotp hnd (' ' :: c0 :: T2) (hBS ▸ hTAGS), hsx]
  | true =>
    have hx : c0 ≠ 'x' := by
      rcases hc0x with hx | ⟨hprn, hcon, hcrn, hhead0⟩
      · exact hx
      · subst hprn
        subst hcon
        subst hcrn
        simp only [Option.isNone_none, Bool.and_true, Bool.and_self,
          Bool.not_true, Bool.false_or] at hmark
        rw [hhead0] at hmark
        simpa using hmark
    have hlist : (if (true : Bool) then ['x'] else []) ++
        bodyChars ⟨tis, true, pr, co, cr, pj, cx, ot, ct⟩ = 'x' :: ' ' :: c0 :: T2 := by
      rw [if_pos rfl, hbody, hBS]
      rfl
    have hreq : Todo.render ⟨tis, true, pr, co, cr, pj, cx, ot, ct⟩ =
        String.mk ('x' :: ' ' :: c0 :: T2) := by
      unfold Todo.render
      exact congrArg String.mk hlist
    have hsx : startsX (String.mk ('x' :: ' ' :: c0 :: T2)) = true := by
      simp [startsX]
    have hpcq : parseContent (String.mk ('x' :: ' ' :: c0 :: T2)) =
        String.mk (c0 :: T2) := by
      unfold parseContent
      rw [hsx, if_pos rfl]
      exact congrArg String.mk (by
        rw [show (String.mk ('x' :: ' ' :: c0 :: T2)).data.drop 1 = ' ' :: c0 :: T2
          from rfl]
        exact htrimRB)
    rw [parse_eq, hreq, hpcq]
    rw [titleOf_not_x c0 T2 hx, htitleTail,
      datesOf_of_findAll co cr (c0 :: T2)
        ((findAll_dateM_space (c0 :: T2)).symm.trans (hBS ▸ hDATES)) hco hcr,
      priorityOf_of_findFirst pr (c0 :: T2)
        ((findFirst_priM_space (c0 :: T2)).symm.trans (hBS ▸ hPRI)),
      projectOf_of_findFirst pj (c0 :: T2)
        ((findFirst_projM_space (c0 :: T2)).symm.trans (hBS ▸ hPROJ)),
      contextOf_of_findFirst cx (c0 :: T2)
        ((findFirst_ctxM_space (c0 :: T2)).symm.trans (hBS ▸ hCTX)),
      tagsOf_of_findAll ot hotp hnd (c0 :: T2)
        ((findAll_tagM_space (c0 :: T2)).symm.trans (hBS ▸ hTAGS)), hsx]

/-- The record produced by re-parsing a rendering is itself canonical. -/
theorem WF_transfer (t : Todo) (h : WF t = true) (C : String) :
    WF { t with
      creation := (reparseDates t.completion t.creation).1,
      completion := (reparseDates t.completion t.creation).2,
      content := C } = true := by
  obtain ⟨tis, comp, pr, co, cr, pj, cx, ot, ct⟩ := t
  simp only [WF, Bool.and_eq_true] at h ⊢
  obtain ⟨⟨⟨⟨⟨⟨⟨hpr, hco⟩, hcr⟩, hti⟩, hpj⟩, hcx⟩, hot0⟩, hmark⟩ := h
  refine ⟨⟨⟨⟨⟨⟨⟨hpr, ?_⟩, ?_⟩, hti⟩, hpj⟩, hcx⟩, hot0⟩, ?_⟩
  · rcases co with - | a <;> rcases cr with - | b <;> simp only [reparseDates]
    · rfl
    · rfl
    · rfl
    · exact hcr
  · rcases co with - | a <;> rcases cr with - | b <;> simp only [reparseDates]
    · rfl
    · exact hcr
    · exact hco
    · exact hco
  · rcases co with - | a <;> rcases cr with - | b <;> simp only [reparseDates]
    · exact hmark
    · simp
    · simp
    · simp

/-- C1 (corrected): for a line in canonical field order — the rendering of a
canonical record — the parse succeeds, and re-parsing the rendering of the
parsed record reproduces `completed`, `priority`, `title`, `project`,
`context` and the tag map exactly; the two date fields are reproduced when at
most one of them is present, and are exchanged when both are present, because
render emits the completion date before the creation date while parse assigns
the first bare date token to creation and the second to completion. -/
theorem c1_roundtrip_amended (r : Todo) (h : WF r = true) :
    ∃ p1 p2, Todo.parse (Todo.render r) = .ok p1 ∧
      Todo.parse (Todo.render p1) = .ok p2 ∧
      p2.completed = p1.completed ∧ p2.priority = p1.priority ∧
      p2.title = p1.title ∧ p2.project = p1.project ∧
      p2.context = p1.context ∧ p2.others = p1.others ∧
      ((p1.creation = none ∨ p1.completion = none) →
        (p2.creation = p1.creation ∧ p2.completion = p1.completion)) ∧
      (p1.creation ≠ none → p1.completion ≠ none →
        (p2.creation = p1.completion ∧ p2.completion = p1.creation)) := by
  refine ⟨_, _, parse_render_ok r h, parse_render_ok _ (WF_transfer r h _),
    rfl, rfl, rfl, rfl, rfl, rfl, ?_, ?_⟩
  · intro hone
    rcases hco : r.completion with - | a <;> rcases hcr : r.creation with - | b <;>
      simp_all [reparseDates]
  · intro h1 h2
    rcases hco : r.completion with - | a <;> rcases hcr : r.creation with - | b <;>
      simp_all [reparseDates]

/-- Witness for C1: the amended round trip applied to a concrete canonical
record carrying both dates. -/
theorem c1_witness :
    WF ⟨"Hello World", true, some "A", some ⟨2024, 9, 20⟩, some ⟨2024, 8, 15⟩,
        some "hello", some "wow", [("due", "123")], ""⟩ = true ∧
    (∃ p1 p2,
      Todo.parse (Todo.render ⟨"Hello World", true, some "A", some ⟨2024, 9, 20⟩,
          some ⟨2024, 8, 15⟩, some "hello", some "wow", [("due", "123")], ""⟩) =
        .ok p1 ∧
      Todo.parse (Todo.render p1) = .ok p2 ∧
      p2.completed = p1.completed ∧ p2.priority = p1.priority ∧
      p2.title = p1.title ∧ p2.project = p1.project ∧
      p2.context = p1.context ∧ p2.others = p1.others ∧
      ((p1.creation = none ∨ p1.completion = none) →
        (p2.creation = p1.creation ∧ p2.completion = p1.completion)) ∧
      (p1.creation ≠ none → p1.completion ≠ none →
        (p2.creation = p1.completion ∧ p2.completion = p1.creation))) :=
  ⟨by decide, c1_roundtrip_amended _ (by decide)⟩
